import Mathlib

/-!
Verification development for the styled-unused-exports engine.

The program under study is a regex-driven static-analysis tool: it extracts
exported styled-component symbols from a file's text, discovers candidate
importing files, computes per-importer used-symbol sets, and reports exported
symbols with no discovered usage, caching file contents (keyed by mtime),
importer lists and usage sets.

The embedding below models file text as `List Char`, file identities as `Nat`,
the three module-level caches as association lists, and the file system as a
function `Nat → Option (List Char × Nat)` (content and mtime; `none` models a
stat/read failure).  Each JavaScript regular expression used by the source is
hand-translated into an executable matcher whose leftmost-match / greedy
semantics are forced for the particular pattern (the token after each greedy
`\s+`, `\w+` or `[^x]*` run always starts with a character outside the run's
class, so backtracking cannot produce a different match).  ASCII character
classes are used: `\w` is `[A-Za-z0-9_]`, `\s` is the ASCII whitespace set,
`.` excludes line terminators, and the JavaScript capitalization test
`c === c.toUpperCase()` holds exactly when `c` is not a lowercase ASCII letter.
-/

/-- `\w` character class of JavaScript regexes: `[A-Za-z0-9_]`. -/
def isWordChar (c : Char) : Bool :=
  (Char.ofNat 97 ≤ c && c ≤ Char.ofNat 122) ||
  (Char.ofNat 65 ≤ c && c ≤ Char.ofNat 90) ||
  (Char.ofNat 48 ≤ c && c ≤ Char.ofNat 57) ||
  c = Char.ofNat 95

/-- `\s` character class (ASCII part): space, tab, LF, VT, FF, CR. -/
def isSpaceChar (c : Char) : Bool :=
  c = Char.ofNat 32 || c = Char.ofNat 9 || c = Char.ofNat 10 ||
  c = Char.ofNat 11 || c = Char.ofNat 12 || c = Char.ofNat 13

/-- The `['"]` character class: a single or double quote. -/
def isQuoteChar (c : Char) : Bool :=
  c = Char.ofNat 39 || c = Char.ofNat 34

/-- `.` in a JavaScript regex matches anything but a line terminator. -/
def notNewlineChar (c : Char) : Bool :=
  !(c = Char.ofNat 10 || c = Char.ofNat 13)

/-- `[a-zA-Z0-9]`, the tag class of the direct-export regex (no underscore). -/
def isAlnumChar (c : Char) : Bool :=
  (Char.ofNat 97 ≤ c && c ≤ Char.ofNat 122) ||
  (Char.ofNat 65 ≤ c && c ≤ Char.ofNat 90) ||
  (Char.ofNat 48 ≤ c && c ≤ Char.ofNat 57)

/-- The source's capitalization test `p[0] === p[0].toUpperCase()`:
true exactly when the first character is not a lowercase ASCII letter
(digits, underscore and uppercase letters all satisfy it). -/
def jsCapitalized (t : List Char) : Bool :=
  match t with
  | [] => false
  | c :: _ => !(Char.ofNat 97 ≤ c && c ≤ Char.ofNat 122)

/-- Strip a literal prefix, returning the remainder on success. -/
def stripPrefixL : List Char → List Char → Option (List Char)
  | [], l => some l
  | _ :: _, [] => none
  | p :: ps, c :: cs => if p = c then stripPrefixL ps cs else none

/-- `text.includes(pat)`: the pattern occurs as a contiguous substring. -/
def containsStr (p : List Char) : List Char → Bool
  | [] => (stripPrefixL p []).isSome
  | c :: cs => (stripPrefixL p (c :: cs)).isSome || containsStr p cs

/-- JavaScript `String.prototype.trim` (ASCII whitespace model). -/
def trimWs (l : List Char) : List Char :=
  ((l.dropWhile isSpaceChar).reverse.dropWhile isSpaceChar).reverse

/-- Split on commas, as `String.prototype.split(",")` does. -/
def splitCommaAux (cur : List Char) : List Char → List (List Char)
  | [] => [cur]
  | c :: cs =>
    if c = Char.ofNat 44 then cur :: splitCommaAux [] cs
    else splitCommaAux (cur ++ [c]) cs

/-- Split a character list at commas. -/
def splitComma (l : List Char) : List (List Char) :=
  splitCommaAux [] l

/-- Find the first occurrence of `"*/"` and return what follows it, if any
(the lazy `[\s\S]*?\*\/` of the comment-stripping regex). -/
def cutBlockClose : List Char → Option (List Char)
  | [] => none
  | [_] => none
  | a :: b :: cs =>
    if a = Char.ofNat 42 && b = Char.ofNat 47 then some cs
    else cutBlockClose (b :: cs)

/-- Fuel-indexed worker for `stripComments`.  Every step consumes at least
one character of the list, so fuel `l.length + 1` always suffices and the
fuel argument is only a structural-recursion device;
`exportContent.replace(/\/\*[\s\S]*?\*\/|\/\/.*/g, "")` removes block
comments (lazy, to the first `*/`) and line comments (to the line end); an
unterminated `/*` matches neither alternative, so its character is kept and
scanning resumes one character later. -/
def stripCommentsF : Nat → List Char → List Char
  | 0, _ => []
  | _ + 1, [] => []
  | fuel + 1, c :: cs =>
    if c = Char.ofNat 47 then
      match cs with
      | [] => [c]
      | d :: ds =>
        if d = Char.ofNat 42 then
          match cutBlockClose ds with
          | some rest => stripCommentsF fuel rest
          | none => c :: stripCommentsF fuel (d :: ds)
        else if d = Char.ofNat 47 then
          stripCommentsF fuel (ds.dropWhile notNewlineChar)
        else
          c :: stripCommentsF fuel (d :: ds)
    else
      c :: stripCommentsF fuel cs

/-- The comment-stripping `replace` call of the grouped-export loop. -/
def stripComments (l : List Char) : List Char :=
  stripCommentsF (l.length + 1) l

/-- Word-boundary test of `\b` between two adjacent positions: exactly one of
the neighbouring characters (absent = non-word) is a word character. -/
def wordBoundary (a b : Option Char) : Bool :=
  (match a with | none => false | some c => isWordChar c) !=
  (match b with | none => false | some c => isWordChar c)

/-- `slice.search(new RegExp("\\b" + item + "\\b"))`: index of the first
occurrence of `item` that is word-bounded on both sides (`prev` is the
character before the current position).  The interpolated item is matched
literally; the items fed to it by the extractor contain no regex
metacharacters other than spaces. -/
def searchBounded (item : List Char) (prev : Option Char) (i : Nat) :
    List Char → Option Nat
  | [] =>
    match stripPrefixL item [] with
    | some _ => if wordBoundary prev item.head? && wordBoundary none item.getLast? then some i else none
    | none => none
  | c :: cs =>
    match stripPrefixL item (c :: cs) with
    | some rest =>
      if wordBoundary prev item.head? && wordBoundary rest.head? item.getLast? then some i
      else searchBounded item (some c) (i + 1) cs
    | none => searchBounded item (some c) (i + 1) cs

/-- `text.indexOf(pat, start)` (plain substring search from an offset). -/
def indexOfPlainAux (pat : List Char) (i : Nat) : List Char → Option Nat
  | [] => if (stripPrefixL pat ([] : List Char)).isSome then some i else none
  | c :: cs =>
    if (stripPrefixL pat (c :: cs)).isSome then some i
    else indexOfPlainAux pat (i + 1) cs

/-- `text.indexOf(pat, start)`: search begins at index `start`. -/
def indexOfFrom (t pat : List Char) (start : Nat) : Option Nat :=
  (indexOfPlainAux pat 0 (t.drop start)).map (· + start)

/-- Association-list lookup, modelling `Map.prototype.get`. -/
def mget {κ ν : Type} [DecidableEq κ] : List (κ × ν) → κ → Option ν
  | [], _ => none
  | (k, v) :: m, k' => if k = k' then some v else mget m k'

/-- `Map.prototype.set` (lookup sees the newest binding). -/
def mset {κ ν : Type} (k : κ) (v : ν) (m : List (κ × ν)) : List (κ × ν) :=
  (k, v) :: m

/-- `Map.prototype.delete`. -/
def mdel {κ ν : Type} [DecidableEq κ] (k : κ) (m : List (κ × ν)) : List (κ × ν) :=
  m.filter (fun p => !(p.1 = k))

theorem mget_mset_self {κ ν : Type} [DecidableEq κ] (k : κ) (v : ν) (m : List (κ × ν)) :
    mget (mset k v m) k = some v := by
  simp [mget, mset]

theorem mget_mset_ne {κ ν : Type} [DecidableEq κ] (k k' : κ) (v : ν) (m : List (κ × ν))
    (h : k ≠ k') : mget (mset k v m) k' = mget m k' := by
  simp [mget, mset, h]

theorem mget_mdel_self {κ ν : Type} [DecidableEq κ] (k : κ) (m : List (κ × ν)) :
    mget (mdel k m) k = none := by
  induction m with
  | nil => simp [mget, mdel]
  | cons p m ih =>
    obtain ⟨k', v⟩ := p
    by_cases h : k' = k
    · subst h; simpa [mdel, mget] using ih
    · simp [mdel, mget, h] at ih ⊢
      simpa [List.filter] using ih

theorem mget_mdel_ne {κ ν : Type} [DecidableEq κ] (k k' : κ) (m : List (κ × ν))
    (h : k ≠ k') : mget (mdel k m) k' = mget m k' := by
  induction m with
  | nil => simp [mget, mdel]
  | cons p m ih =>
    obtain ⟨k₁, v⟩ := p
    simp only [mdel] at ih ⊢
    rw [List.filter_cons]
    by_cases h1 : k₁ = k
    · subst h1
      simp [mget, h, ih]
    · by_cases h2 : k₁ = k'
      · subst h2
        simp [mget, h1]
      · simp [mget, h1, h2, ih]

theorem mdel_mdel {κ ν : Type} [DecidableEq κ] (k : κ) (m : List (κ × ν)) :
    mdel k (mdel k m) = mdel k m := by
  simp [mdel, List.filter_filter]

/-! Character constants used by the matchers (written via code points so the
file stays free of brace and quote literals). -/

/-- The character `{`. -/
def lbraceChar : Char := Char.ofNat 123

/-- The character `}`. -/
def rbraceChar : Char := Char.ofNat 125

/-- The backtick character. -/
def backtickChar : Char := Char.ofNat 96

/-- The character `<`. -/
def ltChar : Char := Char.ofNat 60

/-- The character `>`. -/
def gtChar : Char := Char.ofNat 62

/-- The character `.`. -/
def dotChar : Char := Char.ofNat 46

/-- The character `=`. -/
def eqChar : Char := Char.ofNat 61

/-- The character `*`. -/
def starChar : Char := Char.ofNat 42

/-- The character `/`. -/
def slashChar : Char := Char.ofNat 47

/-- The keyword `export`. -/
def kwExport : List Char := ("export").toList

/-- The keyword `const`. -/
def kwConst : List Char := ("const").toList

/-- The keyword `styled`. -/
def kwStyled : List Char := ("styled").toList

/-- The keyword `from`. -/
def kwFrom : List Char := ("from").toList

/-- The keyword `as`. -/
def kwAs : List Char := ("as").toList

/-- The literal `styled.` of the pre-filter `includes` test. -/
def strStyledDot : List Char := ("styled.").toList

/-- The literal `export \x7b` of the pre-filter `includes` test. -/
def strExportBrace : List Char := ("export \x7b").toList

/-- The literal `export const` of the pre-filter `includes` test. -/
def strExportConst : List Char := ("export const").toList

/-- Run a deterministic matcher at every position left to right, skipping to
the end of each match, exactly as a global `regex.exec` loop advancing
`lastIndex` does.  The matcher returns a payload and the match length; every
matcher used here consumes at least one character, so `Nat.max len 1` equals
`len`, and fuel `l.length + 1` always suffices (each step consumes at least
one character); the fuel is only a structural-recursion device. -/
def scanMatchesF {α : Type} (matchAt : List Char → Option (α × Nat)) :
    Nat → Nat → List Char → List (Nat × α × Nat)
  | 0, _, _ => []
  | _ + 1, _, [] => []
  | fuel + 1, i, c :: cs =>
    match matchAt (c :: cs) with
    | some (a, len) =>
      (i, a, len) :: scanMatchesF matchAt fuel (i + Nat.max len 1) ((c :: cs).drop (Nat.max len 1))
    | none => scanMatchesF matchAt fuel (i + 1) cs

/-- The exec loop, starting at position `i` with sufficient fuel. -/
def scanMatches {α : Type} (matchAt : List Char → Option (α × Nat)) (i : Nat)
    (l : List Char) : List (Nat × α × Nat) :=
  scanMatchesF matchAt (l.length + 1) i l

/-- `regex.test(content)`: does the pattern match at some position? -/
def anyPos (f : List Char → Bool) : List Char → Bool
  | [] => f []
  | c :: cs => f (c :: cs) || anyPos f cs

/-- Matcher for `export\s*{([^}]+)}` at one position; returns the captured
inner text and the match length.  The greedy `\s*` and `[^}]+` runs are
forced because the next literal (`{` resp. `}`) lies outside their class. -/
def matchNamedAt (l : List Char) : Option (List Char × Nat) :=
  match stripPrefixL kwExport l with
  | none => none
  | some r1 =>
    let ws := r1.takeWhile isSpaceChar
    match r1.dropWhile isSpaceChar with
    | [] => none
    | c :: r3 =>
      if c = lbraceChar then
        let inner := r3.takeWhile (fun d => !(d = rbraceChar))
        match r3.dropWhile (fun d => !(d = rbraceChar)) with
        | [] => none
        | _ :: _ =>
          if inner.isEmpty then none
          else some (inner, 6 + ws.length + 1 + inner.length + 1)
      else none

/-- One exported symbol as produced by `getExportedComponents`: a name and the
half-open offset range anchoring its diagnostic (offsets stand in for the
editor's `positionAt` conversion, which is a bijection on offsets). -/
structure ExportedComponent where
  name : List Char
  startPos : Nat
  stopPos : Nat
deriving DecidableEq

/-- The comma-split, comment-stripped, trimmed, nonempty items of a grouped
export block. -/
def exportItems (inner : List Char) : List (List Char) :=
  ((splitComma (stripComments inner)).map trimWs).filter (fun i => !i.isEmpty)

/-- Components contributed by the grouped-export loop: for each match of the
named-export regex, each item is located inside the matched slice by a
word-bounded search and skipped when the search fails. -/
def namedComponentsOf (text : List Char) : List ExportedComponent :=
  (scanMatches matchNamedAt 0 text).flatMap (fun m =>
    let matched := (text.drop m.1).take m.2.2
    (exportItems m.2.1).filterMap (fun item =>
      (searchBounded item none 0 matched).map (fun idx =>
        ⟨item, m.1 + idx, m.1 + idx + item.length⟩)))

/-- Matcher for the direct-export regex
`export\s+const\s+(\w+)\s*=\s*styled\.[a-zA-Z0-9]+(?:<[^>]+>)?` followed by a
backtick, at one position; returns the captured name and the match length.
Every greedy run is forced by the character class of the following literal;
when the optional generic group is present but not followed by a backtick the
group also fails empty (the next character is `<`, not a backtick), so the
whole match fails, as encoded below. -/
def matchDirectAt (l : List Char) : Option (List Char × Nat) :=
  match stripPrefixL kwExport l with
  | none => none
  | some r1 =>
    let ws1 := r1.takeWhile isSpaceChar
    if ws1.isEmpty then none else
    match stripPrefixL kwConst (r1.dropWhile isSpaceChar) with
    | none => none
    | some r2 =>
      let ws2 := r2.takeWhile isSpaceChar
      if ws2.isEmpty then none else
      let r3 := r2.dropWhile isSpaceChar
      let nm := r3.takeWhile isWordChar
      if nm.isEmpty then none else
      let r4 := r3.dropWhile isWordChar
      let ws3 := r4.takeWhile isSpaceChar
      match r4.dropWhile isSpaceChar with
      | [] => none
      | e :: r6 =>
        if e = eqChar then
          let ws4 := r6.takeWhile isSpaceChar
          match stripPrefixL kwStyled (r6.dropWhile isSpaceChar) with
          | none => none
          | some r7 =>
            match r7 with
            | [] => none
            | d :: r8 =>
              if d = dotChar then
                let tag := r8.takeWhile isAlnumChar
                if tag.isEmpty then none else
                let r9 := r8.dropWhile isAlnumChar
                let base := 6 + ws1.length + 5 + ws2.length + nm.length + ws3.length
                  + 1 + ws4.length + 6 + 1 + tag.length
                match r9 with
                | [] => none
                | g :: r10 =>
                  if g = backtickChar then some (nm, base + 1)
                  else if g = ltChar then
                    let gen := r10.takeWhile (fun d2 => !(d2 = gtChar))
                    if gen.isEmpty then none else
                    match r10.dropWhile (fun d2 => !(d2 = gtChar)) with
                    | [] => none
                    | _ :: r12 =>
                      match r12 with
                      | [] => none
                      | b :: _ =>
                        if b = backtickChar then some (nm, base + 1 + gen.length + 1 + 1)
                        else none
                  else none
              else none
        else none

/-- Components contributed by the direct-export loop: the captured name,
located by `match[0].indexOf(name, 13)` within the matched slice (13 is the
length of `export const `); the search cannot fail because the name always
starts at offset 13 or later, so the `getD 0` default is unreachable. -/
def directComponentsOf (text : List Char) : List ExportedComponent :=
  (scanMatches matchDirectAt 0 text).map (fun m =>
    let matched := (text.drop m.1).take m.2.2
    let ns := (indexOfFrom matched m.2.1 13).getD 0
    ⟨m.2.1, m.1 + ns, m.1 + ns + m.2.1.length⟩)

/-- `getExportedComponents`: grouped-export components first, then
direct-export components, in source-scan order. -/
def getExportedComponents (text : List Char) : List ExportedComponent :=
  namedComponentsOf text ++ directComponentsOf text

/-- Matcher for the pre-filter regex `export\s+const\s+\w+\s*=\s*styled\.`
at one position. -/
def matchExportConstStyledAt (l : List Char) : Bool :=
  match stripPrefixL kwExport l with
  | none => false
  | some r1 =>
    let ws1 := r1.takeWhile isSpaceChar
    if ws1.isEmpty then false else
    match stripPrefixL kwConst (r1.dropWhile isSpaceChar) with
    | none => false
    | some r2 =>
      let ws2 := r2.takeWhile isSpaceChar
      if ws2.isEmpty then false else
      let r3 := r2.dropWhile isSpaceChar
      let nm := r3.takeWhile isWordChar
      if nm.isEmpty then false else
      let r4 := r3.dropWhile isWordChar
      match r4.dropWhile isSpaceChar with
      | [] => false
      | e :: r6 =>
        if e = eqChar then
          match stripPrefixL kwStyled (r6.dropWhile isSpaceChar) with
          | none => false
          | some r7 =>
            match r7 with
            | [] => false
            | d :: _ => d = dotChar
        else false

/-- `isStyledComponentFile`: the cheap substring pre-filter followed by the
more specific test, exactly as in the source (the first `if` returns false
when `styled.` is missing or when neither `export \x7b` nor `export const`
occurs as a literal substring). -/
def isStyledComponentFile (text : List Char) : Bool :=
  if !(containsStr strStyledDot text)
      || (!(containsStr strExportBrace text) && !(containsStr strExportConst text)) then
    false
  else
    containsStr strStyledDot text
      && (containsStr strExportBrace text || anyPos matchExportConstStyledAt text)

/-- The keyword starting an ES import statement. -/
def kwImports : List Char := ("import").toList

/-- Helper for the namespace alternative `Alias\.(\w+)` of the usage regex:
match the alias literally, then a dot, then a nonempty greedy word run
(the capture). -/
def aliasDotTok (a l : List Char) : Option (List Char × Nat) :=
  match stripPrefixL a l with
  | none => none
  | some r1 =>
    match r1 with
    | [] => none
    | d :: r2 =>
      if d = dotChar then
        let tok := r2.takeWhile isWordChar
        if tok.isEmpty then none else some (tok, a.length + 1 + tok.length)
      else none

/-- First alternative `(?:<|\b)Alias\.(\w+)` of the usage regex at one
position.  `prevWord` records whether the preceding character is a word
character: since the alias always begins with a word character, the `\b`
branch applies exactly when `prevWord` is false. -/
def tryNsAlt (nsAlias : Option (List Char)) (prevWord : Bool) (l : List Char) :
    Option (List Char × Nat) :=
  match nsAlias with
  | none => none
  | some a =>
    match l with
    | [] => none
    | c :: cs =>
      if c = ltChar then (aliasDotTok a cs).map (fun p => (p.1, p.2 + 1))
      else if prevWord then none
      else aliasDotTok a (c :: cs)

/-- Second alternative `(?:<|\b)(\w+)` of the usage regex at one position:
after a `<`, or at a word boundary, capture a nonempty greedy word run. -/
def tryBareAlt (prevWord : Bool) (l : List Char) : Option (List Char × Nat) :=
  match l with
  | [] => none
  | c :: cs =>
    if c = ltChar then
      let tok := cs.takeWhile isWordChar
      if tok.isEmpty then none else some (tok, 1 + tok.length)
    else if isWordChar c && !prevWord then
      some ((c :: cs).takeWhile isWordChar, ((c :: cs).takeWhile isWordChar).length)
    else none

/-- The global exec loop of the usage regex: at each position try the
namespace alternative, then the bare alternative; on a match, collect the
captured token and resume after the match (the last consumed character is a
word character, so `prevWord` becomes true); otherwise advance one character.
Every match consumes at least one character, so `Nat.max len 1 = len` and
fuel `l.length + 1` always suffices. -/
def scanCapturesF (nsAlias : Option (List Char)) : Nat → Bool → List Char → List (List Char)
  | 0, _, _ => []
  | _ + 1, _, [] => []
  | fuel + 1, prevWord, c :: cs =>
    match tryNsAlt nsAlias prevWord (c :: cs) with
    | some (tok, len) => tok :: scanCapturesF nsAlias fuel true ((c :: cs).drop (Nat.max len 1))
    | none =>
      match tryBareAlt prevWord (c :: cs) with
      | some (tok, len) => tok :: scanCapturesF nsAlias fuel true ((c :: cs).drop (Nat.max len 1))
      | none => scanCapturesF nsAlias fuel (isWordChar c) cs

/-- The usage-regex exec loop with sufficient fuel. -/
def scanCaptures (nsAlias : Option (List Char)) (prevWord : Bool) (l : List Char) :
    List (List Char) :=
  scanCapturesF nsAlias (l.length + 1) prevWord l

/-- Tail `(?:\.\w+)?['"]` of the from-clause patterns, given the text after
the base name: either a quote immediately, or a dot, a nonempty word run and
a quote.  The recursion explores every split of the backtracking `\w+`. -/
def wordsThenQuote : Bool → List Char → Bool
  | _, [] => false
  | seen, c :: cs => (seen && isQuoteChar c) || (isWordChar c && wordsThenQuote true cs)

/-- `(?:\.\w+)?['"]` as a whole. -/
def extQuoteMatch : List Char → Bool
  | [] => false
  | c :: cs => isQuoteChar c || (c = dotChar && wordsThenQuote false cs)

/-- Match the interpolated base name.  The source interpolates the raw file
base name into the regex, so a dot inside it is the regex metacharacter `.`
(any non-newline character); every other character of a path base name is
matched literally. -/
def stripNameDots : List Char → List Char → Option (List Char)
  | [], l => some l
  | _ :: _, [] => none
  | p :: ps, c :: cs =>
    if p = dotChar then
      if notNewlineChar c then stripNameDots ps cs else none
    else if p = c then stripNameDots ps cs else none

/-- The base name followed by `(?:\.\w+)?['"]`. -/
def nameExtQuote (name l : List Char) : Bool :=
  match stripNameDots name l with
  | some rest => extQuoteMatch rest
  | none => false

/-- The `(?:.*\/)?` prefix alternative with a nonempty prefix: walk forward
over non-newline characters and try the name after every slash (this is
exactly the set of splits the greedy, backtracking `.*\/` explores). -/
def fromSlashScan (name : List Char) : List Char → Bool
  | [] => false
  | c :: cs =>
    notNewlineChar c && ((c = slashChar && nameExtQuote name cs) || fromSlashScan name cs)

/-- The from-clause tail `(?:.*\/)?name(?:\.\w+)?['"]`, applied to the text
following the opening quote. -/
def fromTailMatch (name l : List Char) : Bool :=
  nameExtQuote name l || fromSlashScan name l

/-- Matcher, at one position, for the namespace-import regex of the usage
resolver: `import\s+\*\s+as\s+(\w+)\s+from\s*['"](?:.*\/)?name(?:\.\w+)?['"]`
(note `\s*` after `from`); returns the captured alias. -/
def matchNsImportAt (name l : List Char) : Option (List Char) :=
  match stripPrefixL kwImports l with
  | none => none
  | some r1 =>
    let ws1 := r1.takeWhile isSpaceChar
    if ws1.isEmpty then none else
    match r1.dropWhile isSpaceChar with
    | [] => none
    | c :: r2 =>
      if c = starChar then
        let ws2 := r2.takeWhile isSpaceChar
        if ws2.isEmpty then none else
        match stripPrefixL kwAs (r2.dropWhile isSpaceChar) with
        | none => none
        | some r3 =>
          let ws3 := r3.takeWhile isSpaceChar
          if ws3.isEmpty then none else
          let r4 := r3.dropWhile isSpaceChar
          let a := r4.takeWhile isWordChar
          if a.isEmpty then none else
          let r5 := r4.dropWhile isWordChar
          let ws4 := r5.takeWhile isSpaceChar
          if ws4.isEmpty then none else
          match stripPrefixL kwFrom (r5.dropWhile isSpaceChar) with
          | none => none
          | some r6 =>
            match r6.dropWhile isSpaceChar with
            | [] => none
            | q :: r7 =>
              if isQuoteChar q && fromTailMatch name r7 then some a else none
      else none

/-- `content.match(namespaceImportRegex)`, group 1: the alias captured by the
leftmost match (the capture is forced once the start position is fixed). -/
def findNsAlias (name : List Char) : List Char → Option (List Char)
  | [] => none
  | c :: cs =>
    match matchNsImportAt name (c :: cs) with
    | some a => some a
    | none => findNsAlias name cs

/-- Namespace binding `\*\s+as\s+\w+` of the importer-detection regex;
returns the rest of the text after the binding. -/
def bindingNs (l : List Char) : Option (List Char) :=
  match l with
  | [] => none
  | c :: r1 =>
    if c = starChar then
      let ws1 := r1.takeWhile isSpaceChar
      if ws1.isEmpty then none else
      match stripPrefixL kwAs (r1.dropWhile isSpaceChar) with
      | none => none
      | some r2 =>
        let ws2 := r2.takeWhile isSpaceChar
        if ws2.isEmpty then none else
        let r3 := r2.dropWhile isSpaceChar
        let w := r3.takeWhile isWordChar
        if w.isEmpty then none else some (r3.dropWhile isWordChar)
    else none

/-- Named binding `{[^}]*}` (the inner run may be empty); returns the rest. -/
def bindingBrace (l : List Char) : Option (List Char) :=
  match l with
  | [] => none
  | c :: r1 =>
    if c = lbraceChar then
      match r1.dropWhile (fun d => !(d = rbraceChar)) with
      | [] => none
      | _ :: r2 => some r2
    else none

/-- Default-like binding `\w+`; returns the rest. -/
def bindingWord (l : List Char) : Option (List Char) :=
  let w := l.takeWhile isWordChar
  if w.isEmpty then none else some (l.dropWhile isWordChar)

/-- Matcher, at one position, for the importer-detection regex
`import\s+(?:\*\s+as\s+\w+|{[^}]*}|\w+)\s+from\s+['"](?:.*\/)?name(?:\.\w+)?['"]`
(note `\s+` after `from` here).  The three binding alternatives are
distinguished by their first character, so no backtracking crosses them. -/
def matchImportAt (name l : List Char) : Bool :=
  match stripPrefixL kwImports l with
  | none => false
  | some r1 =>
    let ws1 := r1.takeWhile isSpaceChar
    if ws1.isEmpty then false else
    let r2 := r1.dropWhile isSpaceChar
    let bindRest :=
      match bindingNs r2 with
      | some r => some r
      | none =>
        match bindingBrace r2 with
        | some r => some r
        | none => bindingWord r2
    match bindRest with
    | none => false
    | some r3 =>
      let ws2 := r3.takeWhile isSpaceChar
      if ws2.isEmpty then false else
      match stripPrefixL kwFrom (r3.dropWhile isSpaceChar) with
      | none => false
      | some r4 =>
        let ws3 := r4.takeWhile isSpaceChar
        if ws3.isEmpty then false else
        match r4.dropWhile isSpaceChar with
        | [] => false
        | q :: r5 => isQuoteChar q && fromTailMatch name r5

/-- `mightImportFromFile(content, fileName)`: the `includes` fast path, then
the importer-detection regex test. -/
def mightImportFromFile (content name : List Char) : Bool :=
  containsStr name content && anyPos (matchImportAt name) content

/-- The usage resolver's computation on file content: detect a namespace
alias for the style file, run the usage regex, and keep the tokens that pass
the capitalization test (`Set` insertion order equals discovery order; only
membership is ever consulted). -/
def computeUsedComponents (content styleName : List Char) : List (List Char) :=
  (scanCaptures (findNsAlias styleName content) false content).filter jsCapitalized

/-- The model of the file system: file identity to content and mtime;
`none` models a failing `fs.statSync`/`readFileSync` (deleted or
inaccessible file). -/
def Disk : Type := Nat → Option (List Char × Nat)

/-- The three module-level caches.  The usage cache is keyed first by the
importing file and then by the style file's base name, exactly as
`componentUsageCache` stores a map from style-file name to used set. -/
structure Caches where
  contentCache : List (Nat × (List Char × Nat))
  impCache : List (Nat × List Nat)
  usageCache : List (Nat × List (List Char × List (List Char)))
deriving DecidableEq

/-- The caches at activation time (all empty). -/
def emptyCaches : Caches := ⟨[], [], []⟩

/-- `readFileWithCache`: stat the file; on failure evict the entry and
return `none`; on success return the cached content when the cached mtime
matches, otherwise (re)read the file and update the cache. -/
def readFileWithCache (disk : Disk) (s : Caches) (f : Nat) :
    Option (List Char) × Caches :=
  match disk f with
  | none => (none, { s with contentCache := mdel f s.contentCache })
  | some (content, mtime) =>
    match mget s.contentCache f with
    | some (c0, m0) =>
      if m0 = mtime then (some c0, s)
      else (some content, { s with contentCache := mset f (content, mtime) s.contentCache })
    | none => (some content, { s with contentCache := mset f (content, mtime) s.contentCache })

/-- `invalidateCachesForFile`: drop the file's entry from all three caches. -/
def invalidateCachesForFile (f : Nat) (s : Caches) : Caches :=
  { contentCache := mdel f s.contentCache
    impCache := mdel f s.impCache
    usageCache := mdel f s.usageCache }

/-- The `onDidChangeTextDocument` handler's cache action: it deletes only the
content-cache entry of the changed document (the debounced check it schedules
is a separate step). -/
def onChangeCacheAction (f : Nat) (s : Caches) : Caches :=
  { s with contentCache := mdel f s.contentCache }

/-- The cached lookup of an importer's used-symbol set for a given style-file
base name. -/
def usageLookup (s : Caches) (f : Nat) (styleName : List Char) :
    Option (List (List Char)) :=
  match mget s.usageCache f with
  | none => none
  | some inner => mget inner styleName

/-- `getUsedComponentsFromFileCached`: return the cached set when present;
otherwise read the importing file.  A failed read, and equally an empty
content (the source's `if (!content) return null` falsiness test, which an
empty string also fails), yields `none` and caches nothing in the usage
cache; otherwise the used set is computed from the content, stored under
(importing file, style base name) and returned. -/
def getUsedComponentsFromFileCached (disk : Disk) (s : Caches) (f : Nat)
    (styleName : List Char) : Option (List (List Char)) × Caches :=
  match usageLookup s f styleName with
  | some used => (some used, s)
  | none =>
    match readFileWithCache disk s f with
    | (none, s1) => (none, s1)
    | (some content, s1) =>
      if content.isEmpty then (none, s1)
      else
        let used := computeUsedComponents content styleName
        let inner := (mget s1.usageCache f).getD []
        (some used,
          { s1 with usageCache := mset f (mset styleName used inner) s1.usageCache })

/-- The candidate-scanning loop of `findFilesImportingFromCached`: read every
candidate through the content store and keep, in order, those whose content
passes `mightImportFromFile`. -/
def scanCandidates (disk : Disk) (name : List Char) :
    List Nat → Caches → List Nat × Caches
  | [], s => ([], s)
  | f :: fs, s =>
    let r := readFileWithCache disk s f
    let rest := scanCandidates disk name fs r.2
    match r.1 with
    | some content =>
      if mightImportFromFile content name then (f :: rest.1, rest.2)
      else rest
    | none => rest

/-- `findFilesImportingFromCached`: answer from the importer cache when
possible; with no workspace return `[]` (without caching); otherwise scan all
workspace files other than the document itself and cache the resulting list
under the document's identity.  `ws` is the enumerated workspace file list
(`none` models an absent workspace). -/
def findFilesImportingFromCached (disk : Disk) (ws : Option (List Nat))
    (s : Caches) (docId : Nat) (name : List Char) : List Nat × Caches :=
  match mget s.impCache docId with
  | some l => (l, s)
  | none =>
    match ws with
    | none => ([], s)
    | some allFiles =>
      let r := scanCandidates disk name (allFiles.filter (fun f => !(f = docId))) s
      (r.1, { r.2 with impCache := mset docId r.1 r.2.impCache })

/-- The per-importer usage loop of `checkStyledComponentFile`: query the
resolver for every candidate in order and record the non-`none` sets (a
failed read, or an empty — falsy — content, contributes no entry). -/
def buildUsage (disk : Disk) (styleName : List Char) :
    List Nat → Caches → List (Nat × List (List Char)) × Caches
  | [], s => ([], s)
  | f :: fs, s =>
    let r := getUsedComponentsFromFileCached disk s f styleName
    let rest := buildUsage disk styleName fs r.2
    match r.1 with
    | some used => ((f, used) :: rest.1, rest.2)
    | none => rest

/-- One diagnostic: symbol name, message and anchored offset range (severity
is always Warning and the source tag is constant, so they are omitted). -/
structure Diagnostic where
  name : List Char
  message : List Char
  range : Nat × Nat
deriving DecidableEq

/-- The diagnostic message template. -/
def diagMessage (name : List Char) : List Char :=
  ("Styled component \x27").toList ++ name ++ ("\x27 is exported but not used anywhere.").toList

/-- The reporting loop: a diagnostic for every exported component whose name
is in none of the collected used-symbol sets. -/
def makeDiagnostics (comps : List ExportedComponent)
    (useds : List (List (List Char))) : List Diagnostic :=
  comps.filterMap (fun c =>
    if useds.any (fun u => u.contains c.name) then none
    else some ⟨c.name, diagMessage c.name, (c.startPos, c.stopPos)⟩)

/-- `checkStyledComponentFile`: extract the exported components from the live
text, obtain the (cached) candidate importer list, build the per-importer
usage sets, and report every component used by none of them. -/
def checkStyledComponentFile (disk : Disk) (ws : Option (List Nat))
    (text : List Char) (docId : Nat) (styleName : List Char) (s : Caches) :
    List Diagnostic × Caches :=
  let comps := getExportedComponents text
  let ri := findFilesImportingFromCached disk ws s docId styleName
  let ru := buildUsage disk styleName ri.1 ri.2
  (makeDiagnostics comps (ru.1.map Prod.snd), ru.2)

/-- `checkDocument` on a JS/TS document: clear the document's diagnostics,
then run the styled-component check only when the pre-filter accepts the live
text.  The returned list is the document's diagnostic set after the call. -/
def checkDocument (disk : Disk) (ws : Option (List Nat)) (text : List Char)
    (docId : Nat) (styleName : List Char) (s : Caches) :
    List Diagnostic × Caches :=
  if isStyledComponentFile text then
    checkStyledComponentFile disk ws text docId styleName s
  else
    ([], s)

/-- The diagnostic collection threaded through a check: `checkDocument` first
deletes the document's entry; `checkStyledComponentFile` then sets the
computed list (even when empty). -/
def runCheckStore (disk : Disk) (ws : Option (List Nat)) (text : List Char)
    (docId : Nat) (styleName : List Char) (s : Caches)
    (store : List (Nat × List Diagnostic)) :
    List (Nat × List Diagnostic) × Caches :=
  let r := checkDocument disk ws text docId styleName s
  (if isStyledComponentFile text then mset docId r.1 (mdel docId store)
   else mdel docId store, r.2)

/-- The diagnostics a collection currently holds for a file. -/
def diagnosticsFor (store : List (Nat × List Diagnostic)) (docId : Nat) :
    List Diagnostic :=
  (mget store docId).getD []

/-- The text after the last slash of a path (the path's last segment). -/
def lastSlashSegment (l : List Char) : List Char :=
  (l.reverse.takeWhile (fun c => !(c = slashChar))).reverse

/-- The four recognized script extensions (and no extension), per the spec's
list of recognized file extensions. -/
def recognizedExtList : List (List Char) :=
  [[], (".js").toList, (".jsx").toList, (".ts").toList, (".tsx").toList]

/-- Modelled from the spec: the claimed from-clause test of C5 — the last
path segment of the from-clause equals the base name, optionally followed by
a recognized extension. -/
def specSegmentOk (name seg : List Char) : Bool :=
  recognizedExtList.any (fun e => seg = name ++ e)

/-- Modelled from the spec: C5's description of an import statement at one
position — `import`, whitespace, a namespace / named / default-like binding,
whitespace, `from`, whitespace, and a quoted from-clause (read to the next
quote, as a string literal is) whose last path segment equals the base name
with at most a recognized extension. -/
def specImportStmtAt (name l : List Char) : Bool :=
  match stripPrefixL kwImports l with
  | none => false
  | some r1 =>
    let ws1 := r1.takeWhile isSpaceChar
    if ws1.isEmpty then false else
    let r2 := r1.dropWhile isSpaceChar
    let bindRest :=
      match bindingNs r2 with
      | some r => some r
      | none =>
        match bindingBrace r2 with
        | some r => some r
        | none => bindingWord r2
    match bindRest with
    | none => false
    | some r3 =>
      let ws2 := r3.takeWhile isSpaceChar
      if ws2.isEmpty then false else
      match stripPrefixL kwFrom (r3.dropWhile isSpaceChar) with
      | none => false
      | some r4 =>
        let ws3 := r4.takeWhile isSpaceChar
        if ws3.isEmpty then false else
        match r4.dropWhile isSpaceChar with
        | [] => false
        | q :: r5 =>
          if isQuoteChar q then
            let clause := r5.takeWhile (fun c => !(isQuoteChar c))
            match r5.dropWhile (fun c => !(isQuoteChar c)) with
            | [] => false
            | _ :: _ => specSegmentOk name (lastSlashSegment clause)
          else false

/-- Modelled from the spec: C5's claimed content test, an import statement as
above somewhere in the content. -/
def specImportClaimed (content name : List Char) : Bool :=
  anyPos (specImportStmtAt name) content

/-- Pointwise match of the interpolated base name, stated declaratively: a
dot in the name matches any non-newline character, every other character
matches itself. -/
def SpecNameM : List Char → List Char → Prop
  | [], m => m = []
  | p :: ps, m =>
    ∃ c m', m = c :: m' ∧ (if p = dotChar then notNewlineChar c = true else c = p) ∧
      SpecNameM ps m'

/-- Declarative form of the optional-extension-then-quote tail
`(?:\.\w+)?['"]`. -/
def SpecExtQuote (t : List Char) : Prop :=
  ∃ e q r, t = e ++ q :: r ∧
    (e = [] ∨ ∃ w, e = dotChar :: w ∧ w ≠ [] ∧ w.all isWordChar = true) ∧
    isQuoteChar q = true

/-- Declarative form of the from-clause tail `(?:.*\/)?name(?:\.\w+)?['"]`:
an optional non-newline run ending in a slash, the base name, then the
optional extension and a quote. -/
def SpecFromTail (name t : List Char) : Prop :=
  ∃ p m r, t = p ++ m ++ r ∧
    (p = [] ∨ (p.all notNewlineChar = true ∧ p.getLast? = some slashChar)) ∧
    SpecNameM name m ∧ SpecExtQuote r

/-- Declarative form of the three binding alternatives
`\*\s+as\s+\w+`, `{[^}]*}` and `\w+`. -/
def SpecBinding (b : List Char) : Prop :=
  (∃ wsA wsB w, b = starChar :: (wsA ++ kwAs ++ wsB ++ w) ∧
    wsA ≠ [] ∧ wsA.all isSpaceChar = true ∧
    wsB ≠ [] ∧ wsB.all isSpaceChar = true ∧
    w ≠ [] ∧ w.all isWordChar = true) ∨
  (∃ inner, b = lbraceChar :: (inner ++ [rbraceChar]) ∧
    inner.all (fun c => !(c = rbraceChar)) = true) ∨
  (b ≠ [] ∧ b.all isWordChar = true)

/-- Declarative form of the importer-detection pattern at one position. -/
def SpecImportAt (name l : List Char) : Prop :=
  ∃ ws1 b ws2 ws3 q t,
    l = kwImports ++ ws1 ++ b ++ ws2 ++ kwFrom ++ ws3 ++ q :: t ∧
    ws1 ≠ [] ∧ ws1.all isSpaceChar = true ∧
    SpecBinding b ∧
    ws2 ≠ [] ∧ ws2.all isSpaceChar = true ∧
    ws3 ≠ [] ∧ ws3.all isSpaceChar = true ∧
    isQuoteChar q = true ∧ SpecFromTail name t

/-- Declarative form of the importer-detection pattern occurring somewhere in
the content. -/
def SpecImportMatch (name content : List Char) : Prop :=
  ∃ pre suf, content = pre ++ suf ∧ SpecImportAt name suf

/-- The content cache agrees with the disk (as it does whenever every entry
was populated by `readFileWithCache` against the current disk state). -/
def CacheConsistent (disk : Disk) (s : Caches) : Prop :=
  ∀ f c m, mget s.contentCache f = some (c, m) → disk f = some (c, m)

/-- Proof-support predicate: the resolver's answer for (importer `f`, style
name `n`) is determined and stable in state `s` — either the usage cache
holds it, or (after a failed read) the pair is uncached, the file is
unreadable and its content-cache entry is evicted, or (after a read that
returned an empty, falsy content) the pair is uncached and the content cache
holds an empty entry whose mtime matches the disk. -/
def UsageStable (disk : Disk) (n : List Char) (f : Nat)
    (r : Option (List (List Char))) (s : Caches) : Prop :=
  (∃ u, usageLookup s f n = some u ∧ r = some u) ∨
  (usageLookup s f n = none ∧ disk f = none ∧ mget s.contentCache f = none ∧ r = none) ∨
  (usageLookup s f n = none ∧ r = none ∧
    ∃ c m, disk f = some (c, m) ∧ mget s.contentCache f = some ([], m))

/-! ### Basic lemmas about the list utilities -/

theorem stripPrefixL_iff (p : List Char) :
    ∀ l r, stripPrefixL p l = some r ↔ l = p ++ r := by
  induction p with
  | nil =>
    intro l r
    simp only [stripPrefixL, List.nil_append, Option.some.injEq]
  | cons a ps ih =>
    intro l r
    match l with
    | [] => simp [stripPrefixL]
    | c :: cs =>
      simp only [stripPrefixL, List.cons_append, List.cons.injEq]
      by_cases h : a = c
      · subst h
        simp [ih]
      · rw [if_neg h]
        simp [Ne.symm h]

theorem containsStr_mono (p q : List Char) :
    ∀ t, containsStr (p ++ q) t = true → containsStr p t = true := by
  intro t
  induction t with
  | nil =>
    intro h
    cases p with
    | nil => rfl
    | cons a ps => simp [containsStr, stripPrefixL] at h
  | cons c cs ih =>
    simp only [containsStr, Bool.or_eq_true]
    rintro (h | h)
    · left
      rw [Option.isSome_iff_exists] at h ⊢
      obtain ⟨r, hr⟩ := h
      rw [stripPrefixL_iff] at hr
      exact ⟨q ++ r, by rw [stripPrefixL_iff, hr, List.append_assoc]⟩
    · right; exact ih h

theorem takeWhile_all_pred (p : Char → Bool) :
    ∀ l : List Char, (l.takeWhile p).all p = true := by
  intro l
  induction l with
  | nil => simp
  | cons c cs ih =>
    by_cases h : p c
    · simp [List.takeWhile_cons, h, ih]
    · simp [List.takeWhile_cons, h]

theorem takeWhile_forced (p : Char → Bool) :
    ∀ (u v : List Char), u.all p = true → (∀ c, v.head? = some c → p c = false) →
      (u ++ v).takeWhile p = u ∧ (u ++ v).dropWhile p = v := by
  intro u
  induction u with
  | nil =>
    intro v _ hv
    match v with
    | [] => simp
    | c :: cs =>
      have := hv c rfl
      simp [List.takeWhile_cons, List.dropWhile_cons, this]
  | cons a us ih =>
    intro v hu hv
    simp only [List.all_cons, Bool.and_eq_true] at hu
    have := ih v hu.2 hv
    simp [List.takeWhile_cons, List.dropWhile_cons, hu.1, this.1, this.2]

/-! ### C3 — no export statements means no diagnostics -/

/-- C3: for every file whose text contains no export statements (not even the
word `export` occurs in it), checking the file produces an empty diagnostic
list — nothing is set and any prior diagnostics for the file are cleared. -/
theorem C3_no_exports_empty_diagnostics (disk : Disk) (ws : Option (List Nat))
    (text : List Char) (docId : Nat) (styleName : List Char) (s : Caches)
    (store : List (Nat × List Diagnostic))
    (h : containsStr kwExport text = false) :
    (checkDocument disk ws text docId styleName s).1 = [] ∧
    diagnosticsFor (runCheckStore disk ws text docId styleName s store).1 docId = [] := by
  have hbr : containsStr strExportBrace text = false := by
    by_contra hb
    rw [Bool.not_eq_false] at hb
    have : containsStr kwExport text = true := by
      have he : strExportBrace = kwExport ++ (" \x7b").toList := by decide
      exact containsStr_mono _ _ _ (he ▸ hb)
    rw [h] at this
    exact Bool.false_ne_true this
  have hco : containsStr strExportConst text = false := by
    by_contra hb
    rw [Bool.not_eq_false] at hb
    have : containsStr kwExport text = true := by
      have he : strExportConst = kwExport ++ (" const").toList := by decide
      exact containsStr_mono _ _ _ (he ▸ hb)
    rw [h] at this
    exact Bool.false_ne_true this
  have hsty : isStyledComponentFile text = false := by
    unfold isStyledComponentFile
    rw [hbr, hco]
    simp
  refine ⟨by simp [checkDocument, hsty], ?_⟩
  simp only [runCheckStore, hsty, Bool.false_eq_true, if_false, diagnosticsFor]
  rw [mget_mdel_self]
  rfl

/-- Witness for C3 at a concrete file: `const x = 1` has no export text and
produces no diagnostics. -/
theorem C3_witness :
    containsStr kwExport (("const x = 1").toList) = false ∧
    (checkDocument (fun _ => none) (some []) (("const x = 1").toList) 0
      (("F").toList) emptyCaches).1 = [] ∧
    diagnosticsFor (runCheckStore (fun _ => none) (some []) (("const x = 1").toList) 0
      (("F").toList) emptyCaches []).1 0 = [] := by
  have h : containsStr kwExport (("const x = 1").toList) = false := by decide
  have hc := C3_no_exports_empty_diagnostics (fun _ => none) (some []) (("const x = 1").toList)
    0 (("F").toList) emptyCaches [] h
  exact ⟨h, hc.1, hc.2⟩

/-! ### C10 — the substring pre-filter rejects texts the extractor matches -/

/-- C10: the text `export␣␣const Btn = styled.div\x60color:red\x60` (two spaces
after `export`) is matched by the direct-export regex, which extracts `Btn`,
but the pre-filter rejects it because neither `export \x7b` nor
`export const` occurs literally, so a check of the file produces no
diagnostics although it exports a styled component. -/
theorem C10_prefilter_rejects_tab_export :
    isStyledComponentFile (("export  const Btn = styled.div\x60color:red\x60").toList) = false ∧
    (getExportedComponents (("export  const Btn = styled.div\x60color:red\x60").toList)).map
      ExportedComponent.name = [("Btn").toList] ∧
    (checkDocument (fun _ => none) (some []) (("export  const Btn = styled.div\x60color:red\x60").toList)
      0 (("F").toList) emptyCaches).1 = [] := by decide

/-! ### C8 — content store: invalidation and mtime-keyed reads -/

/-- C8: after `invalidate(fileIdentity)` the entry is gone and the next read
returns the current on-disk content even if an entry existed before; and on
any read, a cached entry whose mtime matches the file's current mtime is
returned as-is (no disk read, no cache change), while a mismatch re-reads
the file and updates the cache. -/
theorem C8_invalidate_and_mtime_reads (disk : Disk) (s : Caches) (f : Nat)
    (c0 : List Char) (m0 : Nat) (c : List Char) (m : Nat) :
    mget (invalidateCachesForFile f s).contentCache f = none ∧
    (disk f = some (c, m) →
      (readFileWithCache disk (invalidateCachesForFile f s) f).1 = some c) ∧
    (mget s.contentCache f = some (c0, m0) → disk f = some (c, m) →
      ((m0 = m → readFileWithCache disk s f = (some c0, s)) ∧
       (m0 ≠ m → readFileWithCache disk s f =
         (some c, { s with contentCache := mset f (c, m) s.contentCache })))) := by
  refine ⟨mget_mdel_self f s.contentCache, ?_, ?_⟩
  · intro hd
    unfold readFileWithCache
    rw [hd]
    simp only [invalidateCachesForFile]
    rw [mget_mdel_self]
  · intro hc hd
    constructor
    · intro hm
      unfold readFileWithCache
      rw [hd, hc]
      simp [hm]
    · intro hm
      unfold readFileWithCache
      rw [hd, hc]
      simp [hm]

/-- Witness for C8 at a concrete state: file 0 is cached as `y` at mtime 5;
after invalidation a read returns the on-disk `x`, and without invalidation
the matching mtime returns the cached `y` unchanged. -/
theorem C8_witness :
    mget (invalidateCachesForFile 0
      (⟨[(0, ((("y").toList), 5))], [], []⟩ : Caches)).contentCache 0 = none ∧
    (readFileWithCache (fun _ => some ((("x").toList), 5))
      (invalidateCachesForFile 0 (⟨[(0, ((("y").toList), 5))], [], []⟩ : Caches)) 0).1
      = some (("x").toList) ∧
    readFileWithCache (fun _ => some ((("x").toList), 5))
      (⟨[(0, ((("y").toList), 5))], [], []⟩ : Caches) 0
      = (some (("y").toList), (⟨[(0, ((("y").toList), 5))], [], []⟩ : Caches)) := by
  have h := C8_invalidate_and_mtime_reads (fun _ => some ((("x").toList), 5))
    (⟨[(0, ((("y").toList), 5))], [], []⟩ : Caches) 0 (("y").toList) 5 (("x").toList) 5
  exact ⟨h.1, h.2.1 rfl, (h.2.2 (by decide) rfl).1 rfl⟩

/-! ### C6 — read failures contribute no usage -/

theorem readFileWithCache_usageCache (disk : Disk) (s : Caches) (f : Nat) :
    ((readFileWithCache disk s f).2).usageCache = s.usageCache := by
  unfold readFileWithCache
  cases hd : disk f with
  | none => rfl
  | some cm =>
    obtain ⟨c, m⟩ := cm
    cases hm : mget s.contentCache f with
    | none => rfl
    | some p =>
      obtain ⟨c0, m0⟩ := p
      by_cases h : m0 = m <;> simp [h]

theorem readFileWithCache_impCache (disk : Disk) (s : Caches) (f : Nat) :
    ((readFileWithCache disk s f).2).impCache = s.impCache := by
  unfold readFileWithCache
  cases hd : disk f with
  | none => rfl
  | some cm =>
    obtain ⟨c, m⟩ := cm
    cases hm : mget s.contentCache f with
    | none => rfl
    | some p =>
      obtain ⟨c0, m0⟩ := p
      by_cases h : m0 = m <;> simp [h]

theorem readFileWithCache_none_disk (disk : Disk) (s : Caches) (f : Nat)
    (h : (readFileWithCache disk s f).1 = none) : disk f = none := by
  cases hd : disk f with
  | none => rfl
  | some cm =>
    obtain ⟨c, m⟩ := cm
    unfold readFileWithCache at h
    rw [hd] at h
    cases hm : mget s.contentCache f with
    | none => rw [hm] at h; simp at h
    | some p =>
      obtain ⟨c0, m0⟩ := p
      rw [hm] at h
      by_cases he : m0 = m <;> simp [he] at h

/-- A successful read leaves the returned content in the content cache under
the file's current mtime. -/
theorem readFileWithCache_some_post (disk : Disk) (s : Caches) (f : Nat)
    (content : List Char) (s1 : Caches)
    (h : readFileWithCache disk s f = (some content, s1)) :
    ∃ c m, disk f = some (c, m) ∧ mget s1.contentCache f = some (content, m) := by
  unfold readFileWithCache at h
  cases hd : disk f with
  | none =>
    rw [hd] at h
    exact absurd h (by simp)
  | some cm =>
    obtain ⟨c, m⟩ := cm
    rw [hd] at h
    refine ⟨c, m, rfl, ?_⟩
    cases hm : mget s.contentCache f with
    | none =>
      rw [hm] at h
      simp at h
      obtain ⟨h1, h2⟩ := h
      subst h1
      rw [← h2]
      exact mget_mset_self f _ _
    | some p =>
      obtain ⟨c0, m0⟩ := p
      rw [hm] at h
      by_cases hme : m0 = m
      · simp only [hme, if_pos] at h
        simp at h
        obtain ⟨h1, h2⟩ := h
        subst h1
        rw [← h2, hm, hme]
      · simp only [if_neg hme] at h
        simp at h
        obtain ⟨h1, h2⟩ := h
        subst h1
        rw [← h2]
        exact mget_mset_self f _ _

/-- The resolver on a cache miss whose read succeeds with an empty (falsy)
content: returns `none` and caches no usage entry (the source's
`if (!content) return null` test). -/
theorem getUsed_miss_empty (disk : Disk) (s : Caches) (f : Nat) (n : List Char)
    (content : List Char) (s1 : Caches) (hu : usageLookup s f n = none)
    (hrw : readFileWithCache disk s f = (some content, s1))
    (he : content.isEmpty = true) :
    getUsedComponentsFromFileCached disk s f n = (none, s1) := by
  unfold getUsedComponentsFromFileCached
  rw [hu, hrw]
  simp [he]

/-- The resolver on a cache miss whose read succeeds with a nonempty content:
computes the used set, stores it under the pair and returns it. -/
theorem getUsed_miss_some (disk : Disk) (s : Caches) (f : Nat) (n : List Char)
    (content : List Char) (s1 : Caches) (hu : usageLookup s f n = none)
    (hrw : readFileWithCache disk s f = (some content, s1))
    (he : content.isEmpty = false) :
    getUsedComponentsFromFileCached disk s f n =
      (some (computeUsedComponents content n),
        { s1 with usageCache := mset f (mset n (computeUsedComponents content n)
          ((mget s1.usageCache f).getD [])) s1.usageCache }) := by
  unfold getUsedComponentsFromFileCached
  rw [hu, hrw]
  simp [he]

/-- The resolver on a cache miss with a failing read: returns `none` and only
evicts the importer's content-cache entry. -/
theorem getUsed_fail (disk : Disk) (s : Caches) (f : Nat) (n : List Char)
    (hmiss : usageLookup s f n = none) (hdisk : disk f = none) :
    getUsedComponentsFromFileCached disk s f n =
      (none, { s with contentCache := mdel f s.contentCache }) := by
  unfold getUsedComponentsFromFileCached readFileWithCache
  rw [hmiss, hdisk]

/-! ### C4 — usage-cache invalidation policy (corrected) -/

/-- C4 counterexample: a cached used-set for the pair (importer 0, style file
named `Style`, identity 1) survives a content change of the importer (the
change handler only clears the content cache), a content change of the style
file, and even a save of the style file (`invalidateCachesForFile 1` only
deletes entries keyed by identity 1); the next query returns the stale cached
set instead of recomputing `[New]` from the importer's current content. -/
theorem C4_counterexample :
    usageLookup (onChangeCacheAction 0
        (⟨[], [], [(0, [((("Style").toList), [("Old").toList])])]⟩ : Caches))
      0 (("Style").toList) = some [("Old").toList] ∧
    usageLookup (onChangeCacheAction 1
        (⟨[], [], [(0, [((("Style").toList), [("Old").toList])])]⟩ : Caches))
      0 (("Style").toList) = some [("Old").toList] ∧
    usageLookup (invalidateCachesForFile 1
        (⟨[], [], [(0, [((("Style").toList), [("Old").toList])])]⟩ : Caches))
      0 (("Style").toList) = some [("Old").toList] ∧
    (getUsedComponentsFromFileCached (fun _ => some ((("<New />").toList), 7))
        (onChangeCacheAction 0
          (⟨[], [], [(0, [((("Style").toList), [("Old").toList])])]⟩ : Caches))
        0 (("Style").toList)).1 = some [("Old").toList] ∧
    computeUsedComponents (("<New />").toList) (("Style").toList) = [("New").toList] := by
  decide

/-- C4 amended: the (importer, source) usage-cache entry is dropped only by
`invalidateCachesForFile` on the importing file (triggered by its save).
After that, the next query reads the importer, and — following the source's
`if (!content) return null` falsiness test — recomputes the set from the
current on-disk content when that content is nonempty, returns `none` and
caches no usage entry when the content is empty, and returns `none` when the
read fails.  Content changes alone and changes of the source file leave the
entry in place (see the counterexample). -/
theorem C4_amended_save_invalidation (disk : Disk) (s : Caches) (f : Nat)
    (n c : List Char) (m : Nat) :
    mget (invalidateCachesForFile f s).usageCache f = none ∧
    (disk f = some (c, m) → c ≠ [] →
      (getUsedComponentsFromFileCached disk (invalidateCachesForFile f s) f n).1 =
        some (computeUsedComponents c n)) ∧
    (disk f = some ([], m) →
      (getUsedComponentsFromFileCached disk (invalidateCachesForFile f s) f n).1 = none ∧
      usageLookup ((getUsedComponentsFromFileCached disk (invalidateCachesForFile f s) f n).2)
        f n = none) ∧
    (disk f = none →
      (getUsedComponentsFromFileCached disk (invalidateCachesForFile f s) f n).1 = none) := by
  have hu0 : usageLookup (invalidateCachesForFile f s) f n = none := by
    unfold usageLookup
    simp only [invalidateCachesForFile]
    rw [mget_mdel_self]
  have hc0 : mget (invalidateCachesForFile f s).contentCache f = none := by
    simp only [invalidateCachesForFile]
    exact mget_mdel_self f s.contentCache
  refine ⟨mget_mdel_self f s.usageCache, ?_, ?_, ?_⟩
  · intro hd hcne
    have hce : c.isEmpty = false := by
      cases c with
      | nil => exact absurd rfl hcne
      | cons a l => rfl
    have hread : readFileWithCache disk (invalidateCachesForFile f s) f =
        (some c, { invalidateCachesForFile f s with
          contentCache := mset f (c, m) (invalidateCachesForFile f s).contentCache }) := by
      unfold readFileWithCache
      rw [hd, hc0]
    rw [getUsed_miss_some disk _ f n c _ hu0 hread hce]
  · intro hd
    have hread : readFileWithCache disk (invalidateCachesForFile f s) f =
        (some [], { invalidateCachesForFile f s with
          contentCache := mset f ([], m) (invalidateCachesForFile f s).contentCache }) := by
      unfold readFileWithCache
      rw [hd, hc0]
    have heq := getUsed_miss_empty disk _ f n [] _ hu0 hread rfl
    refine ⟨by rw [heq], ?_⟩
    rw [heq]
    unfold usageLookup at hu0 ⊢
    exact hu0
  · intro hd
    rw [getUsed_fail disk _ f n hu0 hd]

/-- Witness for C4 at concrete states: after saving importer 0 its stale
entry is gone; with on-disk content `<New />` the next query recomputes the
set from that content, with empty on-disk content it returns `none` and
caches no usage entry, and with the importer unreadable it returns `none`. -/
theorem C4_witness :
    mget (invalidateCachesForFile 0
      (⟨[], [], [(0, [((("Style").toList), [("Old").toList])])]⟩ : Caches)).usageCache 0 = none ∧
    (getUsedComponentsFromFileCached (fun _ => some ((("<New />").toList), 7))
      (invalidateCachesForFile 0
        (⟨[], [], [(0, [((("Style").toList), [("Old").toList])])]⟩ : Caches))
      0 (("Style").toList)).1 = some (computeUsedComponents (("<New />").toList) (("Style").toList)) ∧
    (getUsedComponentsFromFileCached (fun _ => some (([] : List Char), 7))
      (invalidateCachesForFile 0
        (⟨[], [], [(0, [((("Style").toList), [("Old").toList])])]⟩ : Caches))
      0 (("Style").toList)).1 = none ∧
    (getUsedComponentsFromFileCached (fun _ => none)
      (invalidateCachesForFile 0
        (⟨[], [], [(0, [((("Style").toList), [("Old").toList])])]⟩ : Caches))
      0 (("Style").toList)).1 = none := by
  have h1 := C4_amended_save_invalidation (fun _ => some ((("<New />").toList), 7))
    (⟨[], [], [(0, [((("Style").toList), [("Old").toList])])]⟩ : Caches) 0
    (("Style").toList) (("<New />").toList) 7
  have h2 := C4_amended_save_invalidation (fun _ => some (([] : List Char), 7))
    (⟨[], [], [(0, [((("Style").toList), [("Old").toList])])]⟩ : Caches) 0
    (("Style").toList) [] 7
  have h3 := C4_amended_save_invalidation (fun _ => none)
    (⟨[], [], [(0, [((("Style").toList), [("Old").toList])])]⟩ : Caches) 0
    (("Style").toList) [] 7
  exact ⟨h1.1, h1.2.1 rfl (by decide), (h2.2.2.1 rfl).1, h3.2.2.2 rfl⟩

/-- Processing one importer never touches usage-cache entries of another. -/
theorem getUsed_usageCache_other (disk : Disk) (s : Caches) (g f : Nat)
    (n : List Char) (h : g ≠ f) :
    mget ((getUsedComponentsFromFileCached disk s g n).2).usageCache f =
      mget s.usageCache f := by
  cases hu : usageLookup s g n with
  | some used =>
    have heq : getUsedComponentsFromFileCached disk s g n = (some used, s) := by
      unfold getUsedComponentsFromFileCached
      rw [hu]
    rw [heq]
  | none =>
    rcases hrw : readFileWithCache disk s g with ⟨ro, s1⟩
    have husage : s1.usageCache = s.usageCache := by
      have h2 := readFileWithCache_usageCache disk s g
      rw [hrw] at h2
      exact h2
    cases ro with
    | none =>
      have hd : disk g = none := readFileWithCache_none_disk disk s g (by rw [hrw])
      rw [getUsed_fail disk s g n hu hd]
    | some content =>
      cases he : content.isEmpty with
      | true =>
        rw [getUsed_miss_empty disk s g n content s1 hu hrw he]
        show mget s1.usageCache f = mget s.usageCache f
        rw [husage]
      | false =>
        rw [getUsed_miss_some disk s g n content s1 hu hrw he]
        show mget (mset g (mset n (computeUsedComponents content n)
          ((mget s1.usageCache g).getD [])) s1.usageCache) f = mget s.usageCache f
        rw [mget_mset_ne g f _ _ h, husage]

/-- C6: when a file's stat or read fails and no stale usage entry bypasses
the read, the content store evicts the entry and returns absent (rather than
throwing), the usage resolver returns absent for that importing file, and the
orchestrator's usage loop records no entry for the file — a read failure is
never treated as usage. -/
theorem C6_read_failure_contributes_no_usage (disk : Disk) (f : Nat)
    (n : List Char) (cands : List Nat) (hdisk : disk f = none) :
    ∀ s : Caches, usageLookup s f n = none →
      (readFileWithCache disk s f).1 = none ∧
      mget ((readFileWithCache disk s f).2).contentCache f = none ∧
      (getUsedComponentsFromFileCached disk s f n).1 = none ∧
      ¬ f ∈ ((buildUsage disk n cands s).1.map Prod.fst) := by
  induction cands with
  | nil =>
    intro s hmiss
    refine ⟨?_, ?_, ?_, by simp [buildUsage]⟩
    · unfold readFileWithCache; rw [hdisk]
    · unfold readFileWithCache; rw [hdisk]
      exact mget_mdel_self f s.contentCache
    · rw [getUsed_fail disk s f n hmiss hdisk]
  | cons g gs ih =>
    intro s hmiss
    have base := ih s hmiss
    refine ⟨base.1, base.2.1, base.2.2.1, ?_⟩
    by_cases hgf : g = f
    · subst hgf
      simp only [buildUsage]
      rw [getUsed_fail disk s g n hmiss hdisk]
      simp only []
      have hmiss' : usageLookup { s with contentCache := mdel g s.contentCache } g n = none := by
        unfold usageLookup at hmiss ⊢
        exact hmiss
      exact (ih _ hmiss').2.2.2
    · simp only [buildUsage]
      rcases hr : getUsedComponentsFromFileCached disk s g n with ⟨ro, s1⟩
      have hmiss1 : usageLookup s1 f n = none := by
        have := getUsed_usageCache_other disk s g f n hgf
        rw [hr] at this
        unfold usageLookup at hmiss ⊢
        rw [this]
        exact hmiss
      have hrest := (ih s1 hmiss1).2.2.2
      cases ro with
      | none => simpa [hr] using hrest
      | some u =>
        simp only [hr]
        simp only [List.map_cons, List.mem_cons]
        rintro (h1 | h1)
        · exact hgf h1.symm
        · exact hrest h1

/-- Witness for C6 at a concrete state: file 0 is deleted; with a cold usage
cache the store returns absent, the resolver returns absent and the usage
loop over candidates `[0]` records nothing for file 0. -/
theorem C6_witness :
    (readFileWithCache (fun _ => none) emptyCaches 0).1 = none ∧
    mget ((readFileWithCache (fun _ => none) emptyCaches 0).2).contentCache 0 = none ∧
    (getUsedComponentsFromFileCached (fun _ => none) emptyCaches 0 (("S").toList)).1 = none ∧
    ¬ 0 ∈ ((buildUsage (fun _ => none) (("S").toList) [0] emptyCaches).1.map Prod.fst) := by
  exact C6_read_failure_contributes_no_usage (fun _ => none) 0 (("S").toList) [0] rfl
    emptyCaches (by decide)

theorem aliasDotTok_sound (a l tok : List Char) (len : Nat)
    (h : aliasDotTok a l = some (tok, len)) :
    tok ≠ [] ∧ tok.all isWordChar = true ∧ tok <:+: l := by
  unfold aliasDotTok at h
  rcases hs : stripPrefixL a l with _ | r1 <;> rw [hs] at h
  · simp at h
  · rcases r1 with _ | ⟨d, r2⟩
    · simp at h
    · by_cases hd : d = dotChar
      · simp [hd] at h
        obtain ⟨hne, htok, hlen⟩ := h
        refine ⟨?_, by rw [← htok]; exact takeWhile_all_pred _ _, ?_⟩
        · rw [← htok]
          obtain ⟨hl0, hw⟩ := hne
          match r2, hl0, hw with
          | c :: r, _, hw =>
            simp only [List.getElem_cons_zero] at hw
            simp [List.takeWhile_cons, hw]
        · rw [← htok]
          rw [stripPrefixL_iff] at hs
          obtain ⟨t', ht'⟩ := List.takeWhile_prefix (l := r2) isWordChar
          refine ⟨a ++ [d], t', ?_⟩
          rw [hs]
          conv_rhs => rw [← ht']
          simp
      · simp [hd] at h

theorem tryNsAlt_sound (nsAlias : Option (List Char)) (prevWord : Bool)
    (l tok : List Char) (len : Nat)
    (h : tryNsAlt nsAlias prevWord l = some (tok, len)) :
    tok ≠ [] ∧ tok.all isWordChar = true ∧ tok <:+: l := by
  rcases nsAlias with _ | a
  · simp [tryNsAlt] at h
  · rcases l with _ | ⟨c, cs⟩
    · simp [tryNsAlt] at h
    · simp only [tryNsAlt] at h
      by_cases hc : c = ltChar
      · rw [hc, if_pos rfl] at h
        rcases hm : aliasDotTok a cs with _ | ⟨pr1, pr2⟩ <;> rw [hm] at h
        · exact Option.noConfusion h
        · simp at h
          have hs := aliasDotTok_sound a cs pr1 pr2 hm
          have htok : tok = pr1 := h.1.symm
          subst htok
          exact ⟨hs.1, hs.2.1, hs.2.2.trans (List.suffix_cons c cs).isInfix⟩
      · rw [if_neg hc] at h
        cases hb : prevWord
        · rw [hb] at h
          simp only [Bool.false_eq_true, if_false] at h
          exact aliasDotTok_sound a (c :: cs) tok len h
        · rw [hb] at h
          simp at h

theorem tryBareAlt_sound (prevWord : Bool) (l tok : List Char) (len : Nat)
    (h : tryBareAlt prevWord l = some (tok, len)) :
    tok ≠ [] ∧ tok.all isWordChar = true ∧ tok <:+: l := by
  rcases l with _ | ⟨c, cs⟩
  · simp [tryBareAlt] at h
  · simp only [tryBareAlt] at h
    by_cases hc : c = ltChar
    · rw [hc, if_pos rfl] at h
      by_cases he : (cs.takeWhile isWordChar).isEmpty
      · simp [he] at h
      · simp [he] at h
        have htok : tok = cs.takeWhile isWordChar := h.1.symm
        subst htok
        refine ⟨by simpa [List.isEmpty_iff] using he, takeWhile_all_pred _ _, ?_⟩
        exact ((List.takeWhile_prefix _).isInfix).trans (List.suffix_cons c cs).isInfix
    · rw [if_neg hc] at h
      by_cases hw : (isWordChar c && !prevWord) = true
      · rw [if_pos hw] at h
        simp only [Option.some.injEq, Prod.mk.injEq] at h
        have htok : tok = (c :: cs).takeWhile isWordChar := h.1.symm
        subst htok
        rw [Bool.and_eq_true] at hw
        refine ⟨?_, takeWhile_all_pred _ _, (List.takeWhile_prefix _).isInfix⟩
        simp [List.takeWhile_cons, hw.1]
      · rw [if_neg hw] at h; simp at h

theorem scanCapturesF_sound (nsAlias : Option (List Char)) :
    ∀ (fuel : Nat) (prevWord : Bool) (l t : List Char),
      t ∈ scanCapturesF nsAlias fuel prevWord l →
      t ≠ [] ∧ t.all isWordChar = true ∧ t <:+: l := by
  intro fuel
  induction fuel with
  | zero => intro prevWord l t ht; simp [scanCapturesF] at ht
  | succ n ih =>
    intro prevWord l t ht
    rcases l with _ | ⟨c, cs⟩
    · simp [scanCapturesF] at ht
    · rw [scanCapturesF] at ht
      cases h1 : tryNsAlt nsAlias prevWord (c :: cs) with
      | some pr =>
        obtain ⟨tok, len⟩ := pr
        rw [h1] at ht
        simp only [List.mem_cons] at ht
        cases ht with
        | inl he => exact he ▸ tryNsAlt_sound nsAlias prevWord (c :: cs) tok len h1
        | inr hm =>
          have := ih true _ t hm
          exact ⟨this.1, this.2.1, this.2.2.trans (List.drop_suffix _ _).isInfix⟩
      | none =>
        rw [h1] at ht
        cases h2 : tryBareAlt prevWord (c :: cs) with
        | some pr =>
          obtain ⟨tok, len⟩ := pr
          rw [h2] at ht
          simp only [List.mem_cons] at ht
          cases ht with
          | inl he => exact he ▸ tryBareAlt_sound prevWord (c :: cs) tok len h2
          | inr hm =>
            have := ih true _ t hm
            exact ⟨this.1, this.2.1, this.2.2.trans (List.drop_suffix _ _).isInfix⟩
        | none =>
          rw [h2] at ht
          have := ih (isWordChar c) cs t ht
          exact ⟨this.1, this.2.1, this.2.2.trans (List.suffix_cons c cs).isInfix⟩

/-- Every element of a computed used-symbol set is a nonempty all-word-char
token occurring in the importing file's content, with a non-lowercase first
character. -/
theorem computeUsedComponents_sound (content n t : List Char)
    (h : t ∈ computeUsedComponents content n) :
    jsCapitalized t = true ∧ t ≠ [] ∧ t.all isWordChar = true ∧ t <:+: content := by
  unfold computeUsedComponents at h
  rw [List.mem_filter] at h
  have hs := scanCapturesF_sound (findNsAlias n content) (content.length + 1) false content t h.1
  exact ⟨h.2, hs.1, hs.2.1, hs.2.2⟩

/-! ### C2 — what the usage scanner actually requires of a token (corrected) -/

/-- C2 counterexample: in `const A = 1` the token `A` occurs in none of the
claimed shapes — no `A(`, no `<A`, no `A\x7b`, and no namespace alias exists —
yet the resolver adds `A` to the used-symbol set, because the usage regex
`(?:<|\b)(\w+)` accepts any word-boundary token. -/
theorem C2_counterexample :
    ("A").toList ∈ computeUsedComponents (("const A = 1").toList) (("Style").toList) ∧
    findNsAlias (("Style").toList) (("const A = 1").toList) = none ∧
    containsStr (("A(").toList) (("const A = 1").toList) = false ∧
    containsStr (("<A").toList) (("const A = 1").toList) = false ∧
    containsStr (("A\x7b").toList) (("const A = 1").toList) = false := by decide

/-- C2 amended: a token is added to the used-symbol set only if it occurs in
the importing file's content as a nonempty word-character token whose first
character passes the capitalization test — no following `(` or `\x7b`, no
preceding `<`, and no alias qualification is required. -/
theorem C2_token_requires_word_occurrence (content styleName t : List Char)
    (h : t ∈ computeUsedComponents content styleName) :
    t ≠ [] ∧ t.all isWordChar = true ∧ jsCapitalized t = true ∧ t <:+: content := by
  have hs := computeUsedComponents_sound content styleName t h
  exact ⟨hs.2.1, hs.2.2.1, hs.1, hs.2.2.2⟩

/-- Witness for C2 at the counterexample input: `A` is in the set computed
from `const A = 1` and indeed occurs there as a capitalized word token. -/
theorem C2_witness :
    (("A").toList ∈ computeUsedComponents (("const A = 1").toList) (("Style").toList)) ∧
    (("A").toList ≠ [] ∧ (("A").toList).all isWordChar = true ∧
      jsCapitalized (("A").toList) = true ∧ ("A").toList <:+: (("const A = 1").toList)) := by
  have hm : ("A").toList ∈ computeUsedComponents (("const A = 1").toList) (("Style").toList) := by
    decide
  exact ⟨hm, C2_token_requires_word_occurrence _ _ _ hm⟩

/-! ### C9 — aliased grouped-export items (corrected) -/

/-- C9 counterexample: the text contains the grouped export block
`export \x7b A/**/ as B \x7d`, whose comment-stripped item list is exactly
the aliased item `A as B`; yet the extractor emits no symbol at all — the
word-bounded search for the cleaned item runs over the raw matched slice,
which does not contain `A as B` — so no symbol named `A as B` is produced,
and no diagnostic is ever set for any state, refuting the claim's universal
over all grouped export blocks with an aliased item. -/
theorem C9_counterexample :
    (matchNamedAt ((("const S = styled.div\x60x\x60\nexport \x7b A/**/ as B \x7d").toList).drop
        24)).map (fun r => exportItems r.1) = some [("A as B").toList] ∧
    getExportedComponents
      (("const S = styled.div\x60x\x60\nexport \x7b A/**/ as B \x7d").toList) = [] ∧
    isStyledComponentFile
      (("const S = styled.div\x60x\x60\nexport \x7b A/**/ as B \x7d").toList) = true ∧
    (∀ (disk : Disk) (ws : Option (List Nat)) (s : Caches) (n : List Char),
      (checkDocument disk ws
        (("const S = styled.div\x60x\x60\nexport \x7b A/**/ as B \x7d").toList)
        0 n s).1 = []) := by
  refine ⟨by decide, by decide, by decide, ?_⟩
  intro disk ws s n
  have hx : getExportedComponents
      (("const S = styled.div\x60x\x60\nexport \x7b A/**/ as B \x7d").toList) = [] := by
    decide
  unfold checkDocument
  rw [if_pos (by decide)]
  unfold checkStyledComponentFile
  rw [hx]
  rfl

/-- C9 amended (representative block): for the plainly written grouped export
block `export \x7b Foo as Bar \x7d` the extractor emits the single symbol
named `Foo as Bar` (neither `Foo` nor `Bar` alone); used-symbol sets only
ever contain all-word-character tokens, so that symbol is in no importer's
used set and is always diagnosed as unused, whatever the importers' contents
are.  The claim's universal over all grouped export blocks fails — an item
whose cleaned text does not survive verbatim in the raw matched slice yields
no symbol at all (see the counterexample). -/
theorem C9_aliased_item_always_diagnosed :
    (getExportedComponents (("export \x7b Foo as Bar \x7d styled.").toList)).map
      ExportedComponent.name = [("Foo as Bar").toList] ∧
    (∀ (content n : List Char),
      ¬ ("Foo as Bar").toList ∈ computeUsedComponents content n) ∧
    (∀ (contents : List (List Char)) (n : List Char),
      ("Foo as Bar").toList ∈
        (makeDiagnostics (getExportedComponents (("export \x7b Foo as Bar \x7d styled.").toList))
          (contents.map (fun c => computeUsedComponents c n))).map Diagnostic.name) := by
  have hnames : getExportedComponents (("export \x7b Foo as Bar \x7d styled.").toList) =
      [⟨("Foo as Bar").toList, 9, 19⟩] := by decide
  have hnotmem : ∀ (content n : List Char),
      ¬ ("Foo as Bar").toList ∈ computeUsedComponents content n := by
    intro content n hmem
    have hs := computeUsedComponents_sound content n _ hmem
    have hfalse : (("Foo as Bar").toList).all isWordChar = false := by decide
    rw [hs.2.2.1] at hfalse
    exact Bool.noConfusion hfalse
  refine ⟨by rw [hnames]; rfl, hnotmem, ?_⟩
  intro contents n
  rw [hnames]
  have hany : (contents.map (fun c => computeUsedComponents c n)).any
      (fun u => u.contains (("Foo as Bar").toList)) = false := by
    rw [List.any_eq_false]
    intro u hu
    rw [List.mem_map] at hu
    obtain ⟨c, _, hc⟩ := hu
    subst hc
    intro hcon
    exact hnotmem c n (by simpa using hcon)
  simp [makeDiagnostics, hany]
  exact ⟨_, ⟨fun x _ => hnotmem x n, rfl⟩, rfl⟩

theorem makeDiagnostics_name_mem (comps : List ExportedComponent)
    (useds : List (List (List Char))) (nm : List Char) :
    nm ∈ (makeDiagnostics comps useds).map Diagnostic.name ↔
      (nm ∈ comps.map ExportedComponent.name ∧
        useds.any (fun u => u.contains nm) = false) := by
  induction comps with
  | nil => simp [makeDiagnostics]
  | cons c cs ih =>
    by_cases hc : useds.any (fun u => u.contains c.name) = true
    · have hstep : makeDiagnostics (c :: cs) useds = makeDiagnostics cs useds := by
        have hcP : ∃ x ∈ useds, c.name ∈ x := by simpa using hc
        simp [makeDiagnostics, List.filterMap_cons, hcP]
      rw [hstep, ih]
      simp only [List.map_cons, List.mem_cons]
      constructor
      · rintro ⟨h1, h2⟩
        exact ⟨Or.inr h1, h2⟩
      · rintro ⟨h1, h2⟩
        cases h1 with
        | inl he =>
          rw [he] at h2
          rw [h2] at hc
          exact absurd hc (by simp)
        | inr hm => exact ⟨hm, h2⟩
    · have hstep : makeDiagnostics (c :: cs) useds =
          ⟨c.name, diagMessage c.name, (c.startPos, c.stopPos)⟩ :: makeDiagnostics cs useds := by
        have hcP : ¬ ∃ x ∈ useds, c.name ∈ x := by simpa using hc
        simp [makeDiagnostics, List.filterMap_cons, hcP]
      rw [hstep]
      simp only [List.map_cons, List.mem_cons]
      rw [ih]
      have hcf : useds.any (fun u => u.contains c.name) = false := by
        simpa using hc
      constructor
      · rintro (he | ⟨h1, h2⟩)
        · refine ⟨Or.inl he, ?_⟩
          rw [he]
          exact hcf
        · exact ⟨Or.inr h1, h2⟩
      · rintro ⟨(he | hm), h2⟩
        · exact Or.inl he
        · exact Or.inr ⟨hm, h2⟩

/-- C1 counterexample: for the file text `export \x7b Foo \x7d` (no `styled.`
anywhere), `Foo` is in the exported-symbol list extracted from the text and
the import-candidate set is empty (so no used set contains `Foo`), yet the
completed check yields no diagnostics — the claimed equivalence fails because
the pre-filter stops the check before extraction. -/
theorem C1_counterexample :
    (checkDocument (fun _ => none) (some []) (("export \x7b Foo \x7d").toList) 0
      (("F").toList) emptyCaches).1 = [] ∧
    ("Foo").toList ∈ (getExportedComponents (("export \x7b Foo \x7d").toList)).map
      ExportedComponent.name ∧
    (findFilesImportingFromCached (fun _ => none) (some []) emptyCaches 0 (("F").toList)).1
      = [] := by decide

/-- C1 amended: provided the file's text passes the styled-component
pre-filter, a diagnostic exists for symbol `S` after the check if and only if
`S` is in the exported-symbol list extracted from the current text and no
used-symbol set collected over the import-candidate list contains `S`. -/
theorem C1_diagnostic_iff_unused (disk : Disk) (ws : Option (List Nat))
    (text : List Char) (docId : Nat) (styleName : List Char) (s : Caches)
    (S : List Char) (h : isStyledComponentFile text = true) :
    (S ∈ ((checkDocument disk ws text docId styleName s).1).map Diagnostic.name ↔
      (S ∈ (getExportedComponents text).map ExportedComponent.name ∧
        ∀ u ∈ ((buildUsage disk styleName
            (findFilesImportingFromCached disk ws s docId styleName).1
            (findFilesImportingFromCached disk ws s docId styleName).2).1).map Prod.snd,
          ¬ S ∈ u)) := by
  unfold checkDocument
  rw [if_pos h]
  unfold checkStyledComponentFile
  rw [makeDiagnostics_name_mem]
  apply and_congr Iff.rfl
  rw [List.any_eq_false]
  constructor
  · intro h1 u hu
    intro hmem
    exact (h1 u hu) (by simpa using hmem)
  · intro h1 u hu
    intro hcon
    exact (h1 u hu) (by simpa using hcon)

/-- Witness for C1 on a concrete styled file with an empty workspace: the
pre-filter passes and the equivalence instantiates (here `Foo` is both
exported and diagnosed). -/
theorem C1_witness :
    isStyledComponentFile (("export \x7b Foo \x7d styled.").toList) = true ∧
    (("Foo").toList ∈ ((checkDocument (fun _ => none) (some [])
        (("export \x7b Foo \x7d styled.").toList) 0 (("F").toList) emptyCaches).1).map
        Diagnostic.name ↔
      (("Foo").toList ∈ (getExportedComponents
          (("export \x7b Foo \x7d styled.").toList)).map ExportedComponent.name ∧
        ∀ u ∈ ((buildUsage (fun _ => none) (("F").toList)
            (findFilesImportingFromCached (fun _ => none) (some []) emptyCaches 0
              (("F").toList)).1
            (findFilesImportingFromCached (fun _ => none) (some []) emptyCaches 0
              (("F").toList)).2).1).map Prod.snd,
          ¬ ("Foo").toList ∈ u)) := by
  refine ⟨by decide, ?_⟩
  exact C1_diagnostic_iff_unused (fun _ => none) (some [])
    (("export \x7b Foo \x7d styled.").toList) 0 (("F").toList) emptyCaches
    (("Foo").toList) (by decide)

/-! ### C7 — idempotence of a repeated check with unchanged inputs -/

theorem mget_none_mdel {κ ν : Type} [DecidableEq κ] (k : κ) (m : List (κ × ν))
    (h : mget m k = none) : mdel k m = m := by
  induction m with
  | nil => rfl
  | cons p m ih =>
    obtain ⟨k1, v⟩ := p
    by_cases hk : k1 = k
    · subst hk; simp [mget] at h
    · simp only [mget, hk, if_false] at h
      simp only [mdel, List.filter_cons]
      have : (!decide (k1 = k)) = true := by simp [hk]
      rw [this, if_pos rfl]
      rw [show List.filter (fun p => !decide (p.1 = k)) m = mdel k m from rfl, ih h]

theorem readFileWithCache_contentCache_other (disk : Disk) (s : Caches) (g f : Nat)
    (h : g ≠ f) :
    mget ((readFileWithCache disk s g).2).contentCache f = mget s.contentCache f := by
  unfold readFileWithCache
  cases hd : disk g with
  | none => exact mget_mdel_ne g f _ h
  | some cm =>
    obtain ⟨c, m⟩ := cm
    cases hm : mget s.contentCache g with
    | none => exact mget_mset_ne g f _ _ h
    | some p =>
      obtain ⟨c0, m0⟩ := p
      by_cases he : m0 = m
      · simp [he]
      · simp [he, mget_mset_ne g f _ _ h]

theorem getUsed_contentCache_other (disk : Disk) (s : Caches) (g f : Nat)
    (n : List Char) (h : g ≠ f) :
    mget ((getUsedComponentsFromFileCached disk s g n).2).contentCache f =
      mget s.contentCache f := by
  cases hu : usageLookup s g n with
  | some used =>
    have heq : getUsedComponentsFromFileCached disk s g n = (some used, s) := by
      unfold getUsedComponentsFromFileCached
      rw [hu]
    rw [heq]
  | none =>
    rcases hrw : readFileWithCache disk s g with ⟨ro, s1⟩
    have hcc : mget s1.contentCache f = mget s.contentCache f := by
      have h2 := readFileWithCache_contentCache_other disk s g f h
      rw [hrw] at h2
      exact h2
    cases ro with
    | none =>
      have hd : disk g = none := readFileWithCache_none_disk disk s g (by rw [hrw])
      rw [getUsed_fail disk s g n hu hd]
      exact mget_mdel_ne g f _ h
    | some content =>
      cases he : content.isEmpty with
      | true =>
        rw [getUsed_miss_empty disk s g n content s1 hu hrw he]
        exact hcc
      | false =>
        rw [getUsed_miss_some disk s g n content s1 hu hrw he]
        exact hcc

theorem getUsed_impCache (disk : Disk) (s : Caches) (g : Nat) (n : List Char) :
    ((getUsedComponentsFromFileCached disk s g n).2).impCache = s.impCache := by
  cases hu : usageLookup s g n with
  | some used =>
    have heq : getUsedComponentsFromFileCached disk s g n = (some used, s) := by
      unfold getUsedComponentsFromFileCached
      rw [hu]
    rw [heq]
  | none =>
    rcases hrw : readFileWithCache disk s g with ⟨ro, s1⟩
    have hic : s1.impCache = s.impCache := by
      have h2 := readFileWithCache_impCache disk s g
      rw [hrw] at h2
      exact h2
    cases ro with
    | none =>
      have hd : disk g = none := readFileWithCache_none_disk disk s g (by rw [hrw])
      rw [getUsed_fail disk s g n hu hd]
    | some content =>
      cases he : content.isEmpty with
      | true =>
        rw [getUsed_miss_empty disk s g n content s1 hu hrw he]
        exact hic
      | false =>
        rw [getUsed_miss_some disk s g n content s1 hu hrw he]
        exact hic

/-- A stable resolver answer is returned as-is, with no state change. -/
theorem getUsed_of_stable (disk : Disk) (n : List Char) (f : Nat)
    (r : Option (List (List Char))) (s : Caches) (h : UsageStable disk n f r s) :
    getUsedComponentsFromFileCached disk s f n = (r, s) := by
  rcases h with ⟨u, hu, hr⟩ | ⟨hu, hd, hc, hrn⟩ | ⟨hu, hrn, c, m, hd, hcc⟩
  · unfold getUsedComponentsFromFileCached
    rw [hu, hr]
  · rw [getUsed_fail disk s f n hu hd, hrn]
    rw [mget_none_mdel f s.contentCache hc]
  · have hread : readFileWithCache disk s f = (some [], s) := by
      unfold readFileWithCache
      rw [hd, hcc]
      simp
    rw [getUsed_miss_empty disk s f n [] s hu hread rfl, hrn]

/-- After one resolver call its answer is stable in the resulting state. -/
theorem getUsed_stable_post (disk : Disk) (n : List Char) (f : Nat) (s : Caches) :
    UsageStable disk n f ((getUsedComponentsFromFileCached disk s f n).1)
      ((getUsedComponentsFromFileCached disk s f n).2) := by
  cases hu : usageLookup s f n with
  | some used =>
    have heq : getUsedComponentsFromFileCached disk s f n = (some used, s) := by
      unfold getUsedComponentsFromFileCached
      rw [hu]
    rw [heq]
    exact Or.inl ⟨used, hu, rfl⟩
  | none =>
    rcases hrw : readFileWithCache disk s f with ⟨ro, s1⟩
    have husage : s1.usageCache = s.usageCache := by
      have h2 := readFileWithCache_usageCache disk s f
      rw [hrw] at h2
      exact h2
    have hu1 : usageLookup s1 f n = none := by
      unfold usageLookup at hu ⊢
      rw [husage]
      exact hu
    cases ro with
    | none =>
      have hd : disk f = none := readFileWithCache_none_disk disk s f (by rw [hrw])
      rw [getUsed_fail disk s f n hu hd]
      refine Or.inr (Or.inl ⟨?_, hd, ?_, rfl⟩)
      · unfold usageLookup at hu ⊢
        exact hu
      · exact mget_mdel_self f s.contentCache
    | some content =>
      obtain ⟨c, m, hd, hcc⟩ := readFileWithCache_some_post disk s f content s1 hrw
      cases he : content.isEmpty with
      | true =>
        rw [getUsed_miss_empty disk s f n content s1 hu hrw he]
        refine Or.inr (Or.inr ⟨hu1, rfl, c, m, hd, ?_⟩)
        have hc0 : content = [] := by
          cases content with
          | nil => rfl
          | cons a l => exact absurd he (by simp)
        rw [← hc0]
        exact hcc
      | false =>
        rw [getUsed_miss_some disk s f n content s1 hu hrw he]
        refine Or.inl ⟨computeUsedComponents content n, ?_, rfl⟩
        show usageLookup { s1 with usageCache := (mset f (mset n
            (computeUsedComponents content n) ((mget s1.usageCache f).getD []))
            s1.usageCache) } f n = some (computeUsedComponents content n)
        unfold usageLookup
        rw [mget_mset_self]
        exact mget_mset_self n _ _

/-- Resolving any importer preserves stability of another pair's answer. -/
theorem getUsed_preserves_stable (disk : Disk) (n : List Char) (f : Nat)
    (r : Option (List (List Char))) (s : Caches) (g : Nat)
    (h : UsageStable disk n f r s) :
    UsageStable disk n f r ((getUsedComponentsFromFileCached disk s g n).2) := by
  by_cases hgf : g = f
  · subst hgf
    rw [getUsed_of_stable disk n g r s h]
    exact h
  · have hus : mget ((getUsedComponentsFromFileCached disk s g n).2).usageCache f =
        mget s.usageCache f := getUsed_usageCache_other disk s g f n hgf
    have hcc : mget ((getUsedComponentsFromFileCached disk s g n).2).contentCache f =
        mget s.contentCache f := getUsed_contentCache_other disk s g f n hgf
    rcases h with ⟨u, hu, hr⟩ | ⟨hu, hd, hc, hrn⟩ | ⟨hu, hrn, c, m, hd, hce⟩
    · left
      refine ⟨u, ?_, hr⟩
      unfold usageLookup at hu ⊢
      rw [hus]
      exact hu
    · right; left
      refine ⟨?_, hd, ?_, hrn⟩
      · unfold usageLookup at hu ⊢
        rw [hus]
        exact hu
      · rw [hcc]
        exact hc
    · right; right
      refine ⟨?_, hrn, c, m, hd, ?_⟩
      · unfold usageLookup at hu ⊢
        rw [hus]
        exact hu
      · rw [hcc]
        exact hce

theorem buildUsage_preserves_stable (disk : Disk) (n : List Char) (f : Nat)
    (r : Option (List (List Char))) :
    ∀ (gs : List Nat) (s : Caches), UsageStable disk n f r s →
      UsageStable disk n f r ((buildUsage disk n gs s).2) := by
  intro gs
  induction gs with
  | nil => intro s h; exact h
  | cons g gs ih =>
    intro s h
    simp only [buildUsage]
    rcases hr : getUsedComponentsFromFileCached disk s g n with ⟨ro, s1⟩
    have h1 : UsageStable disk n f r s1 := by
      have := getUsed_preserves_stable disk n f r s g h
      rw [hr] at this
      exact this
    cases ro with
    | some u => simpa [hr] using ih s1 h1
    | none => simpa [hr] using ih s1 h1

theorem buildUsage_impCache (disk : Disk) (n : List Char) :
    ∀ (gs : List Nat) (s : Caches),
      ((buildUsage disk n gs s).2).impCache = s.impCache := by
  intro gs
  induction gs with
  | nil => intro s; rfl
  | cons g gs ih =>
    intro s
    simp only [buildUsage]
    rcases hr : getUsedComponentsFromFileCached disk s g n with ⟨ro, s1⟩
    have h1 : s1.impCache = s.impCache := by
      have := getUsed_impCache disk s g n
      rw [hr] at this
      exact this
    cases ro with
    | some u => simpa [hr] using (ih s1).trans h1
    | none => simpa [hr] using (ih s1).trans h1

/-- Re-running the usage loop from its own final state returns the same
usage map and leaves the state unchanged. -/
theorem buildUsage_idem (disk : Disk) (n : List Char) :
    ∀ (gs : List Nat) (s out : _) (s1 : Caches),
      buildUsage disk n gs s = (out, s1) → buildUsage disk n gs s1 = (out, s1) := by
  intro gs
  induction gs with
  | nil =>
    intro s out s1 h
    simp only [buildUsage] at h ⊢
    injection h with h1 h2
    rw [← h1]
  | cons g gs ih =>
    intro s out s1 h
    simp only [buildUsage] at h
    rcases hr : getUsedComponentsFromFileCached disk s g n with ⟨ro, sa⟩
    rw [hr] at h
    rcases hb : buildUsage disk n gs sa with ⟨ro2, sb⟩
    rw [hb] at h
    have hst : UsageStable disk n g ro sa := by
      have := getUsed_stable_post disk n g s
      rw [hr] at this
      exact this
    have hst1 : UsageStable disk n g ro sb := by
      have := buildUsage_preserves_stable disk n g ro gs sa hst
      rw [hb] at this
      exact this
    cases ro with
    | some u =>
      simp only at h
      injection h with hout hs1
      subst hs1
      simp only [buildUsage]
      rw [getUsed_of_stable disk n g (some u) sb hst1]
      simp only
      rw [ih sa ro2 sb hb]
      rw [← hout]
    | none =>
      simp only at h
      injection h with hout hs1
      subst hs1
      simp only [buildUsage]
      rw [getUsed_of_stable disk n g none sb hst1]
      simp only
      rw [ih sa ro2 sb hb]
      rw [← hout]

/-- After a scan stored the importer list (or returned the cached/absent
workspace answer), querying again from the state the check ends in returns
the same list without changing the state. -/
theorem findImp_after (disk : Disk) (ws : Option (List Nat)) (docId : Nat)
    (name : List Char) (s : Caches) (l : List Nat) (sa : Caches)
    (out : List (Nat × List (List Char))) (sb : Caches)
    (h1 : findFilesImportingFromCached disk ws s docId name = (l, sa))
    (h2 : buildUsage disk name l sa = (out, sb)) :
    findFilesImportingFromCached disk ws sb docId name = (l, sb) := by
  have hbi : sb.impCache = sa.impCache := by
    have := buildUsage_impCache disk name l sa
    rw [h2] at this
    exact this
  unfold findFilesImportingFromCached at h1 ⊢
  cases hm : mget s.impCache docId with
  | some l0 =>
    rw [hm] at h1
    injection h1 with hl hs
    subst hl hs
    rw [hbi, hm]
  | none =>
    rw [hm] at h1
    cases ws with
    | none =>
      injection h1 with hl hs
      subst hl hs
      rw [hbi, hm]
    | some allFiles =>
      simp only at h1
      rcases hsc : scanCandidates disk name (allFiles.filter (fun f => !(f = docId))) s
        with ⟨lc, sc⟩
      rw [hsc] at h1
      simp only at h1
      injection h1 with hl hs
      subst hl
      have : mget sb.impCache docId = some lc := by
        rw [hbi, ← hs]
        exact mget_mset_self docId lc sc.impCache
      rw [this]

/-- Running the whole check twice from its own final state returns the same
diagnostics and the same state. -/
theorem checkDocument_idem_full (disk : Disk) (ws : Option (List Nat))
    (text : List Char) (docId : Nat) (styleName : List Char) (s : Caches) :
    checkDocument disk ws text docId styleName
        ((checkDocument disk ws text docId styleName s).2) =
      checkDocument disk ws text docId styleName s := by
  by_cases hsty : isStyledComponentFile text = true
  · unfold checkDocument checkStyledComponentFile
    rw [if_pos hsty, if_pos hsty]
    rcases h1 : findFilesImportingFromCached disk ws s docId styleName with ⟨l, sa⟩
    rcases h2 : buildUsage disk styleName l sa with ⟨out, sb⟩
    have hf2 := findImp_after disk ws docId styleName s l sa out sb h1 h2
    have hb2 := buildUsage_idem disk styleName l sa out sb h2
    simp only [h1, h2, hf2, hb2]
  · unfold checkDocument
    rw [if_neg hsty, if_neg hsty]

/-- C7: checking the same file twice in succession with unchanged live text
and an unchanged workspace (same disk, same enumerated files) yields the
identical diagnostic list — same symbols, messages and ranges. -/
theorem C7_check_idempotent (disk : Disk) (ws : Option (List Nat))
    (text : List Char) (docId : Nat) (styleName : List Char) (s : Caches) :
    (checkDocument disk ws text docId styleName
        ((checkDocument disk ws text docId styleName s).2)).1 =
      (checkDocument disk ws text docId styleName s).1 :=
  congrArg Prod.fst (checkDocument_idem_full disk ws text docId styleName s)

/-! ### C5 — the importer-detection regex, related to its declarative form -/

theorem anyPos_iff (f : List Char → Bool) :
    ∀ l, anyPos f l = true ↔ ∃ pre suf, l = pre ++ suf ∧ f suf = true := by
  intro l
  induction l with
  | nil =>
    simp only [anyPos]
    constructor
    · intro h; exact ⟨[], [], rfl, h⟩
    · rintro ⟨pre, suf, heq, hf⟩
      obtain ⟨h1, h2⟩ := List.append_eq_nil.mp heq.symm
      rw [← h2]
      exact hf
  | cons c cs ih =>
    simp only [anyPos, Bool.or_eq_true]
    constructor
    · rintro (h | h)
      · exact ⟨[], c :: cs, rfl, h⟩
      · obtain ⟨pre, suf, heq, hf⟩ := ih.mp h
        exact ⟨c :: pre, suf, by rw [heq]; rfl, hf⟩
    · rintro ⟨pre, suf, heq, hf⟩
      cases pre with
      | nil =>
        left
        rw [List.nil_append] at heq
        rw [heq]
        exact hf
      | cons p ps =>
        right
        rw [List.cons_append, List.cons.injEq] at heq
        exact ih.mpr ⟨ps, suf, heq.2, hf⟩

theorem wordsThenQuote_iff :
    ∀ (l : List Char) (seen : Bool), wordsThenQuote seen l = true ↔
      ∃ w q r, l = w ++ q :: r ∧ w.all isWordChar = true ∧
        (seen = true ∨ w ≠ []) ∧ isQuoteChar q = true := by
  intro l
  induction l with
  | nil =>
    intro seen
    simp only [wordsThenQuote]
    constructor
    · intro h; exact absurd h (by simp)
    · rintro ⟨w, q, r, heq, -, -, -⟩
      exact absurd heq (by simp)
  | cons c cs ih =>
    intro seen
    simp only [wordsThenQuote, Bool.or_eq_true, Bool.and_eq_true]
    constructor
    · rintro (⟨hs, hq⟩ | ⟨hw, hrec⟩)
      · exact ⟨[], c, cs, rfl, rfl, Or.inl hs, hq⟩
      · obtain ⟨w, q, r, heq, hall, -, hq⟩ := (ih true).mp hrec
        exact ⟨c :: w, q, r, by rw [heq]; rfl, by simp [hall, hw], Or.inr (by simp), hq⟩
    · rintro ⟨w, q, r, heq, hall, hne, hq⟩
      cases w with
      | nil =>
        left
        rw [List.nil_append, List.cons.injEq] at heq
        refine ⟨?_, heq.1 ▸ hq⟩
        cases hne with
        | inl h => exact h
        | inr h => exact absurd rfl h
      | cons a ws =>
        right
        rw [List.cons_append, List.cons.injEq] at heq
        simp only [List.all_cons, Bool.and_eq_true] at hall
        exact ⟨heq.1 ▸ hall.1, (ih true).mpr ⟨ws, q, r, heq.2, hall.2, Or.inl rfl, hq⟩⟩

theorem extQuoteMatch_iff (l : List Char) :
    extQuoteMatch l = true ↔ SpecExtQuote l := by
  unfold SpecExtQuote
  cases l with
  | nil =>
    simp only [extQuoteMatch]
    constructor
    · intro h; exact absurd h (by simp)
    · rintro ⟨e, q, r, heq, -, -⟩
      exact absurd heq (by simp)
  | cons c cs =>
    simp only [extQuoteMatch, Bool.or_eq_true, Bool.and_eq_true]
    constructor
    · rintro (hq | ⟨hd, hw⟩)
      · exact ⟨[], c, cs, rfl, Or.inl rfl, hq⟩
      · obtain ⟨w, q, r, heq, hall, hne, hq⟩ := (wordsThenQuote_iff cs false).mp hw
        have hw' : w ≠ [] := by
          cases hne with
          | inl h => exact absurd h (by simp)
          | inr h => exact h
        have hd' : c = dotChar := of_decide_eq_true hd
        refine ⟨dotChar :: w, q, r, ?_, Or.inr ⟨w, rfl, hw', hall⟩, hq⟩
        rw [hd', heq]
        rfl
    · rintro ⟨e, q, r, heq, he, hq⟩
      cases he with
      | inl h =>
        subst h
        rw [List.nil_append, List.cons.injEq] at heq
        exact Or.inl (heq.1 ▸ hq)
      | inr h =>
        obtain ⟨w, hew, hwne, hall⟩ := h
        subst hew
        rw [List.cons_append, List.cons.injEq] at heq
        refine Or.inr ⟨decide_eq_true heq.1, ?_⟩
        exact (wordsThenQuote_iff cs false).mpr ⟨w, q, r, heq.2, hall, Or.inr hwne, hq⟩

theorem stripNameDots_iff (name : List Char) :
    ∀ l r, stripNameDots name l = some r ↔ ∃ m, l = m ++ r ∧ SpecNameM name m := by
  induction name with
  | nil =>
    intro l r
    simp only [stripNameDots, Option.some.injEq, SpecNameM]
    constructor
    · intro h; exact ⟨[], by rw [h]; rfl, rfl⟩
    · rintro ⟨m, heq, hm⟩
      subst hm
      rw [List.nil_append] at heq
      exact heq
  | cons p ps ih =>
    intro l r
    cases l with
    | nil =>
      simp only [stripNameDots, SpecNameM]
      constructor
      · intro h; exact absurd h (by simp)
      · rintro ⟨m, heq, c, m', hm, -, -⟩
        subst hm
        exact absurd heq (by simp)
    | cons c cs =>
      simp only [stripNameDots, SpecNameM]
      constructor
      · intro h
        by_cases hp : p = dotChar
        · rw [if_pos hp] at h
          by_cases hn : notNewlineChar c = true
          · rw [if_pos hn] at h
            obtain ⟨m', heq, hm'⟩ := (ih cs r).mp h
            exact ⟨c :: m', by rw [heq]; rfl, c, m', rfl, by rw [if_pos hp]; exact hn, hm'⟩
          · rw [if_neg hn] at h
            exact absurd h (by simp)
        · rw [if_neg hp] at h
          by_cases hc : p = c
          · rw [if_pos hc] at h
            obtain ⟨m', heq, hm'⟩ := (ih cs r).mp h
            exact ⟨c :: m', by rw [heq]; rfl, c, m', rfl, by rw [if_neg hp]; exact hc.symm, hm'⟩
          · rw [if_neg hc] at h
            exact absurd h (by simp)
      · rintro ⟨m, heq, c', m', hm, hcond, hm'⟩
        subst hm
        rw [List.cons_append, List.cons.injEq] at heq
        obtain ⟨hc1, hc2⟩ := heq
        subst hc1
        by_cases hp : p = dotChar
        · rw [if_pos hp] at hcond ⊢
          rw [if_pos hcond]
          exact (ih cs r).mpr ⟨m', hc2, hm'⟩
        · rw [if_neg hp] at hcond ⊢
          rw [if_pos hcond.symm]
          exact (ih cs r).mpr ⟨m', hc2, hm'⟩

theorem nameExtQuote_iff (name l : List Char) :
    nameExtQuote name l = true ↔
      ∃ m r, l = m ++ r ∧ SpecNameM name m ∧ SpecExtQuote r := by
  unfold nameExtQuote
  constructor
  · intro h
    cases hs : stripNameDots name l with
    | none => rw [hs] at h; exact absurd h (by simp)
    | some rest =>
      rw [hs] at h
      obtain ⟨m, heq, hm⟩ := (stripNameDots_iff name l rest).mp hs
      exact ⟨m, rest, heq, hm, (extQuoteMatch_iff rest).mp h⟩
  · rintro ⟨m, r, heq, hm, hext⟩
    rw [(stripNameDots_iff name l r).mpr ⟨m, heq, hm⟩]
    exact (extQuoteMatch_iff r).mpr hext

theorem fromSlashScan_iff (name : List Char) :
    ∀ l, fromSlashScan name l = true ↔
      ∃ p r, l = p ++ r ∧ p ≠ [] ∧ p.all notNewlineChar = true ∧
        p.getLast? = some slashChar ∧ nameExtQuote name r = true := by
  intro l
  induction l with
  | nil =>
    simp only [fromSlashScan]
    constructor
    · intro h; exact absurd h (by simp)
    · rintro ⟨p, r, heq, hne, -, -, -⟩
      obtain ⟨h1, -⟩ := List.append_eq_nil.mp heq.symm
      exact (hne h1).elim
  | cons c cs ih =>
    simp only [fromSlashScan, Bool.and_eq_true, Bool.or_eq_true]
    constructor
    · rintro ⟨hnn, (⟨hsl, hneq⟩ | hrec)⟩
      · have hsl' : c = slashChar := of_decide_eq_true hsl
        exact ⟨[c], cs, rfl, by simp, by simp [hnn], by simp [hsl'], hneq⟩
      · obtain ⟨p, r, heq, hpne, hall, hlast, hneq⟩ := ih.mp hrec
        refine ⟨c :: p, r, by rw [heq]; rfl, by simp, by simp [hnn, hall], ?_, hneq⟩
        cases p with
        | nil => exact absurd rfl hpne
        | cons a ps => rw [List.getLast?_cons_cons]; exact hlast
    · rintro ⟨p, r, heq, hpne, hall, hlast, hneq⟩
      cases p with
      | nil => exact absurd rfl hpne
      | cons a ps =>
        rw [List.cons_append, List.cons.injEq] at heq
        obtain ⟨hc1, hc2⟩ := heq
        subst hc1
        simp only [List.all_cons, Bool.and_eq_true] at hall
        refine ⟨hall.1, ?_⟩
        cases ps with
        | nil =>
          left
          simp only [List.getLast?_singleton, Option.some.injEq] at hlast
          rw [List.nil_append] at hc2
          exact ⟨decide_eq_true hlast, hc2 ▸ hneq⟩
        | cons b ps' =>
          right
          rw [List.getLast?_cons_cons] at hlast
          exact ih.mpr ⟨b :: ps', r, hc2, by simp, hall.2, hlast, hneq⟩

theorem fromTailMatch_iff (name l : List Char) :
    fromTailMatch name l = true ↔ SpecFromTail name l := by
  unfold fromTailMatch SpecFromTail
  rw [Bool.or_eq_true]
  constructor
  · rintro (h | h)
    · obtain ⟨m, r, heq, hm, hext⟩ := (nameExtQuote_iff name l).mp h
      exact ⟨[], m, r, by rw [heq]; rfl, Or.inl rfl, hm, hext⟩
    · obtain ⟨p, r, heq, hpne, hall, hlast, hneq⟩ := (fromSlashScan_iff name l).mp h
      obtain ⟨m, r', heq', hm, hext⟩ := (nameExtQuote_iff name r).mp hneq
      exact ⟨p, m, r', by rw [heq, heq']; rw [List.append_assoc], Or.inr ⟨hall, hlast⟩, hm, hext⟩
  · rintro ⟨p, m, r, heq, hp, hm, hext⟩
    cases hp with
    | inl h =>
      subst h
      rw [List.nil_append] at heq
      exact Or.inl ((nameExtQuote_iff name l).mpr ⟨m, r, heq, hm, hext⟩)
    | inr h =>
      right
      by_cases hpe : p = []
      · subst hpe
        simp at h
      · refine (fromSlashScan_iff name l).mpr ⟨p, m ++ r, ?_, hpe, h.1, h.2, ?_⟩
        · rw [heq, List.append_assoc]
        · exact (nameExtQuote_iff name (m ++ r)).mpr ⟨m, r, rfl, hm, hext⟩

theorem ne_nil_isEmpty (l : List Char) (h : l ≠ []) : l.isEmpty = false := by
  cases l with
  | nil => exact absurd rfl h
  | cons a t => rfl

theorem wordChar_not_space (c : Char) (h : isWordChar c = true) : isSpaceChar c = false := by
  by_contra hsp
  rw [Bool.not_eq_false] at hsp
  unfold isSpaceChar at hsp
  simp only [Bool.or_eq_true, decide_eq_true_eq] at hsp
  rcases hsp with ((((h1 | h1) | h1) | h1) | h1) | h1 <;> (subst h1; revert h; decide)

theorem spaceChar_not_word (c : Char) (h : isSpaceChar c = true) : isWordChar c = false := by
  by_contra hw
  rw [Bool.not_eq_false] at hw
  unfold isSpaceChar at h
  simp only [Bool.or_eq_true, decide_eq_true_eq] at h
  rcases h with ((((h1 | h1) | h1) | h1) | h1) | h1 <;> (subst h1; revert hw; decide)

theorem quoteChar_not_space (c : Char) (h : isQuoteChar c = true) : isSpaceChar c = false := by
  unfold isQuoteChar at h
  simp only [Bool.or_eq_true, decide_eq_true_eq] at h
  rcases h with h1 | h1 <;> (subst h1; decide)

theorem wordChar_ne_star (c : Char) (h : isWordChar c = true) : ¬ c = starChar := by
  intro heq
  subst heq
  revert h
  decide

theorem wordChar_ne_lbrace (c : Char) (h : isWordChar c = true) : ¬ c = lbraceChar := by
  intro heq
  subst heq
  revert h
  decide

theorem dropWhile_head_false (p : Char → Bool) :
    ∀ (l : List Char) (d : Char) (r : List Char), l.dropWhile p = d :: r → p d = false := by
  intro l
  induction l with
  | nil => intro d r h; simp [List.dropWhile] at h
  | cons c cs ih =>
    intro d r h
    rw [List.dropWhile_cons] at h
    by_cases hc : p c = true
    · rw [if_pos hc] at h
      exact ih d r h
    · rw [if_neg hc] at h
      rw [List.cons.injEq] at h
      rw [← h.1]
      simpa using hc

theorem head_all_fact (p q : Char → Bool) (himp : ∀ c, p c = true → q c = false)
    (w rest : List Char) (hw : w ≠ []) (hall : w.all p = true) :
    ∀ c, ((w ++ rest).head? = some c) → q c = false := by
  intro c hc
  cases w with
  | nil => exact absurd rfl hw
  | cons a t =>
    simp only [List.cons_append, List.head?_cons, Option.some.injEq] at hc
    subst hc
    simp only [List.all_cons, Bool.and_eq_true] at hall
    exact himp _ hall.1

theorem kwAs_eq : kwAs = [Char.ofNat 97, Char.ofNat 115] := by decide

theorem kwFrom_eq : kwFrom = [Char.ofNat 102, Char.ofNat 114, Char.ofNat 111, Char.ofNat 109] := by
  decide

theorem head_kwAs_not_space (x : List Char) :
    ∀ c, ((kwAs ++ x).head? = some c) → isSpaceChar c = false := by
  intro c hc
  rw [kwAs_eq] at hc
  simp only [List.cons_append, List.head?_cons, Option.some.injEq] at hc
  subst hc
  decide

theorem head_kwFrom_not_space (x : List Char) :
    ∀ c, ((kwFrom ++ x).head? = some c) → isSpaceChar c = false := by
  intro c hc
  rw [kwFrom_eq] at hc
  simp only [List.cons_append, List.head?_cons, Option.some.injEq] at hc
  subst hc
  decide

theorem bindingNs_complete (wsA wsB w rest : List Char)
    (hA : wsA ≠ []) (hAall : wsA.all isSpaceChar = true)
    (hB : wsB ≠ []) (hBall : wsB.all isSpaceChar = true)
    (hw : w ≠ []) (hwall : w.all isWordChar = true)
    (hrest : ∀ c, rest.head? = some c → isWordChar c = false) :
    bindingNs ((starChar :: (wsA ++ kwAs ++ wsB ++ w)) ++ rest) = some rest := by
  have hAe : wsA.isEmpty = false := ne_nil_isEmpty _ hA
  have hBe : wsB.isEmpty = false := ne_nil_isEmpty _ hB
  have hwe : w.isEmpty = false := ne_nil_isEmpty _ hw
  have hs1 := takeWhile_forced isSpaceChar wsA (kwAs ++ (wsB ++ (w ++ rest))) hAall
    (head_kwAs_not_space _)
  have hstrip : stripPrefixL kwAs (kwAs ++ (wsB ++ (w ++ rest))) = some (wsB ++ (w ++ rest)) :=
    (stripPrefixL_iff kwAs _ _).mpr rfl
  have hs2 := takeWhile_forced isSpaceChar wsB (w ++ rest) hBall
    (head_all_fact isWordChar isSpaceChar wordChar_not_space w rest hw hwall)
  have hs3 := takeWhile_forced isWordChar w rest hwall hrest
  simp only [List.cons_append, List.append_assoc]
  simp only [bindingNs]
  rw [if_pos trivial]
  simp only [hs1.1, hs1.2, hAe, Bool.false_eq_true, if_false, hstrip, hs2.1, hs2.2, hBe,
    hs3.1, hs3.2, hwe]

theorem bindingBrace_complete (inner rest : List Char)
    (hin : inner.all (fun c => !(c = rbraceChar)) = true) :
    bindingBrace ((lbraceChar :: (inner ++ [rbraceChar])) ++ rest) = some rest := by
  have hs := takeWhile_forced (fun d => !(d = rbraceChar)) inner (rbraceChar :: rest) hin
    (by intro c hc; simp only [List.head?_cons, Option.some.injEq] at hc; subst hc; simp)
  simp only [List.cons_append, List.append_assoc, List.singleton_append, List.nil_append]
  simp only [bindingBrace]
  rw [if_pos trivial]
  rw [hs.2]

theorem bindingWord_complete (w rest : List Char)
    (hw : w ≠ []) (hwall : w.all isWordChar = true)
    (hrest : ∀ c, rest.head? = some c → isWordChar c = false) :
    bindingWord (w ++ rest) = some rest := by
  have hwe : w.isEmpty = false := ne_nil_isEmpty _ hw
  have hs := takeWhile_forced isWordChar w rest hwall hrest
  unfold bindingWord
  simp only [hs.1, hs.2, hwe, Bool.false_eq_true, if_false]

theorem bindingNs_none_of_not_star (l : List Char)
    (h : ∀ c, l.head? = some c → ¬ c = starChar) : bindingNs l = none := by
  cases l with
  | nil => rfl
  | cons c r1 =>
    simp only [bindingNs]
    rw [if_neg (h c rfl)]

theorem bindingBrace_none_of_not_lbrace (l : List Char)
    (h : ∀ c, l.head? = some c → ¬ c = lbraceChar) : bindingBrace l = none := by
  cases l with
  | nil => rfl
  | cons c r1 =>
    simp only [bindingBrace]
    rw [if_neg (h c rfl)]

theorem isEmpty_false_ne_nil (l : List Char) (h : l.isEmpty = false) : l ≠ [] := by
  cases l with
  | nil => simp at h
  | cons a t => simp

theorem bindingNs_sound (l rest : List Char) (h : bindingNs l = some rest) :
    ∃ b, l = b ++ rest ∧ SpecBinding b := by
  cases l with
  | nil => exact absurd h (by simp [bindingNs])
  | cons c r1 =>
    simp only [bindingNs] at h
    by_cases hc : c = starChar
    · rw [if_pos hc] at h
      by_cases hA : (List.takeWhile isSpaceChar r1).isEmpty = true
      · rw [if_pos hA] at h; exact absurd h (by simp)
      · rw [if_neg hA] at h
        cases hstrip : stripPrefixL kwAs (List.dropWhile isSpaceChar r1) with
        | none => rw [hstrip] at h; exact Option.noConfusion h
        | some r2 =>
          rw [hstrip] at h
          simp only at h
          by_cases hB : (List.takeWhile isSpaceChar r2).isEmpty = true
          · rw [if_pos hB] at h; exact absurd h (by simp)
          · rw [if_neg hB] at h
            by_cases hw0 : (List.takeWhile isWordChar (List.dropWhile isSpaceChar r2)).isEmpty = true
            · rw [if_pos hw0] at h; exact absurd h (by simp)
            · rw [if_neg hw0] at h
              injection h with hre
              rw [Bool.not_eq_true] at hA hB hw0
              refine ⟨starChar :: (List.takeWhile isSpaceChar r1 ++ kwAs ++
                List.takeWhile isSpaceChar r2 ++
                List.takeWhile isWordChar (List.dropWhile isSpaceChar r2)), ?_, ?_⟩
              · have e1 : r1 = List.takeWhile isSpaceChar r1 ++ List.dropWhile isSpaceChar r1 :=
                  (List.takeWhile_append_dropWhile _ _).symm
                have e2 : List.dropWhile isSpaceChar r1 = kwAs ++ r2 :=
                  (stripPrefixL_iff kwAs _ r2).mp hstrip
                have e3 : r2 = List.takeWhile isSpaceChar r2 ++ List.dropWhile isSpaceChar r2 :=
                  (List.takeWhile_append_dropWhile _ _).symm
                have e4 : List.dropWhile isSpaceChar r2 =
                    List.takeWhile isWordChar (List.dropWhile isSpaceChar r2) ++ rest := by
                  conv_lhs => rw [← List.takeWhile_append_dropWhile (p := isWordChar)
                    (l := List.dropWhile isSpaceChar r2)]
                  rw [hre]
                rw [hc]
                simp only [List.cons_append, List.append_assoc, List.cons.injEq, true_and]
                calc r1 = List.takeWhile isSpaceChar r1 ++ List.dropWhile isSpaceChar r1 := e1
                  _ = List.takeWhile isSpaceChar r1 ++ (kwAs ++ r2) := by rw [e2]
                  _ = List.takeWhile isSpaceChar r1 ++ (kwAs ++
                      (List.takeWhile isSpaceChar r2 ++ List.dropWhile isSpaceChar r2)) := by
                    conv_lhs => rw [e3]
                  _ = List.takeWhile isSpaceChar r1 ++ (kwAs ++ (List.takeWhile isSpaceChar r2 ++
                      (List.takeWhile isWordChar (List.dropWhile isSpaceChar r2) ++ rest))) := by
                    conv_lhs => rw [e4]
              · exact Or.inl ⟨List.takeWhile isSpaceChar r1, List.takeWhile isSpaceChar r2,
                  List.takeWhile isWordChar (List.dropWhile isSpaceChar r2),
                  by simp [List.append_assoc], isEmpty_false_ne_nil _ hA, takeWhile_all_pred _ _,
                  isEmpty_false_ne_nil _ hB, takeWhile_all_pred _ _,
                  isEmpty_false_ne_nil _ hw0, takeWhile_all_pred _ _⟩
    · rw [if_neg hc] at h
      exact Option.noConfusion h

theorem bindingBrace_sound (l rest : List Char) (h : bindingBrace l = some rest) :
    ∃ b, l = b ++ rest ∧ SpecBinding b := by
  cases l with
  | nil => exact absurd h (by simp [bindingBrace])
  | cons c r1 =>
    simp only [bindingBrace] at h
    by_cases hc : c = lbraceChar
    · rw [if_pos hc] at h
      cases hdrop : List.dropWhile (fun d => !(d = rbraceChar)) r1 with
      | nil => rw [hdrop] at h; exact Option.noConfusion h
      | cons d r2 =>
        rw [hdrop] at h
        simp only at h
        injection h with hre
        have hd : d = rbraceChar := by
          have := dropWhile_head_false (fun d => !(d = rbraceChar)) r1 d r2 hdrop
          simpa using this
        refine ⟨lbraceChar :: (List.takeWhile (fun d => !(d = rbraceChar)) r1 ++ [rbraceChar]),
          ?_, ?_⟩
        · rw [hc]
          simp only [List.cons_append, List.append_assoc, List.singleton_append,
            List.cons.injEq, true_and]
          calc r1 = List.takeWhile (fun d => !(d = rbraceChar)) r1 ++
              List.dropWhile (fun d => !(d = rbraceChar)) r1 :=
              (List.takeWhile_append_dropWhile _ _).symm
            _ = List.takeWhile (fun d => !(d = rbraceChar)) r1 ++ (rbraceChar :: rest) := by
              rw [hdrop, hd, hre]
        · exact Or.inr (Or.inl ⟨List.takeWhile (fun d => !(d = rbraceChar)) r1, rfl,
            takeWhile_all_pred _ _⟩)
    · rw [if_neg hc] at h
      exact Option.noConfusion h

theorem bindingWord_sound (l rest : List Char) (h : bindingWord l = some rest) :
    ∃ b, l = b ++ rest ∧ SpecBinding b := by
  unfold bindingWord at h
  by_cases hw : (List.takeWhile isWordChar l).isEmpty = true
  · rw [if_pos hw] at h; exact Option.noConfusion h
  · rw [if_neg hw] at h
    injection h with hre
    rw [Bool.not_eq_true] at hw
    refine ⟨List.takeWhile isWordChar l, ?_, ?_⟩
    · rw [← hre]
      exact (List.takeWhile_append_dropWhile _ _).symm
    · exact Or.inr (Or.inr ⟨isEmpty_false_ne_nil _ hw, takeWhile_all_pred _ _⟩)

theorem specBinding_head_not_space (b rest : List Char) (hb : SpecBinding b) :
    ∀ c, ((b ++ rest).head? = some c) → isSpaceChar c = false := by
  intro c hc
  rcases hb with ⟨wsA, wsB, w, hbe, -⟩ | ⟨inner, hbe, -⟩ | ⟨hne, hall⟩
  · subst hbe
    simp only [List.cons_append, List.head?_cons, Option.some.injEq] at hc
    subst hc
    decide
  · subst hbe
    simp only [List.cons_append, List.head?_cons, Option.some.injEq] at hc
    subst hc
    decide
  · exact head_all_fact isWordChar isSpaceChar wordChar_not_space b rest hne hall c hc

theorem specBinding_ne_nil (b : List Char) (hb : SpecBinding b) : b ≠ [] := by
  rcases hb with ⟨wsA, wsB, w, hbe, -⟩ | ⟨inner, hbe, -⟩ | ⟨hne, -⟩
  · subst hbe; simp
  · subst hbe; simp
  · exact hne

theorem binding_alt_complete (b rest : List Char) (hb : SpecBinding b)
    (hrest : ∀ c, rest.head? = some c → isWordChar c = false) :
    (match bindingNs (b ++ rest) with
     | some r => some r
     | none =>
       match bindingBrace (b ++ rest) with
       | some r => some r
       | none => bindingWord (b ++ rest)) = some rest := by
  rcases hb with ⟨wsA, wsB, w, hbe, hA, hAall, hB, hBall, hw, hwall⟩ |
    ⟨inner, hbe, hinall⟩ | ⟨hne, hall⟩
  · subst hbe
    rw [bindingNs_complete wsA wsB w rest hA hAall hB hBall hw hwall hrest]
  · subst hbe
    rw [bindingNs_none_of_not_star _ (by
      intro c hc
      simp only [List.cons_append, List.head?_cons, Option.some.injEq] at hc
      subst hc
      decide)]
    rw [bindingBrace_complete inner rest hinall]
  · have hhead : ∀ c, ((b ++ rest).head? = some c) → isWordChar c = true := by
      intro c hc
      cases b with
      | nil => exact absurd rfl hne
      | cons a t =>
        simp only [List.cons_append, List.head?_cons, Option.some.injEq] at hc
        subst hc
        simp only [List.all_cons, Bool.and_eq_true] at hall
        exact hall.1
    rw [bindingNs_none_of_not_star _ (fun c hc => wordChar_ne_star c (hhead c hc))]
    rw [bindingBrace_none_of_not_lbrace _ (fun c hc => wordChar_ne_lbrace c (hhead c hc))]
    rw [bindingWord_complete b rest hne hall hrest]

theorem matchImportAt_complete (name l : List Char) (h : SpecImportAt name l) :
    matchImportAt name l = true := by
  obtain ⟨ws1, b, ws2, ws3, q, t, heq, h1ne, h1all, hb, h2ne, h2all, h3ne, h3all, hq, hft⟩ := h
  subst heq
  have e0 : stripPrefixL kwImports
      (kwImports ++ (ws1 ++ (b ++ (ws2 ++ (kwFrom ++ (ws3 ++ q :: t)))))) =
      some (ws1 ++ (b ++ (ws2 ++ (kwFrom ++ (ws3 ++ q :: t))))) :=
    (stripPrefixL_iff _ _ _).mpr rfl
  have e1 := takeWhile_forced isSpaceChar ws1 (b ++ (ws2 ++ (kwFrom ++ (ws3 ++ q :: t)))) h1all
    (specBinding_head_not_space b _ hb)
  have e2 := binding_alt_complete b (ws2 ++ (kwFrom ++ (ws3 ++ q :: t))) hb
    (head_all_fact isSpaceChar isWordChar spaceChar_not_word ws2 _ h2ne h2all)
  have e3 := takeWhile_forced isSpaceChar ws2 (kwFrom ++ (ws3 ++ q :: t)) h2all
    (head_kwFrom_not_space _)
  have e4 : stripPrefixL kwFrom (kwFrom ++ (ws3 ++ q :: t)) = some (ws3 ++ q :: t) :=
    (stripPrefixL_iff _ _ _).mpr rfl
  have e5 := takeWhile_forced isSpaceChar ws3 (q :: t) h3all
    (by intro c hc; simp only [List.head?_cons, Option.some.injEq] at hc; subst hc;
        exact quoteChar_not_space q hq)
  simp only [matchImportAt, List.append_assoc, e0, e1.1, e1.2, ne_nil_isEmpty _ h1ne,
    Bool.false_eq_true, if_false, e2, e3.1, e3.2, ne_nil_isEmpty _ h2ne, e4, e5.1, e5.2,
    ne_nil_isEmpty _ h3ne, hq, (fromTailMatch_iff name t).mpr hft, Bool.and_self]

theorem matchImportAt_sound (name l : List Char) (h : matchImportAt name l = true) :
    SpecImportAt name l := by
  simp only [matchImportAt] at h
  cases hstrip : stripPrefixL kwImports l with
  | none => rw [hstrip] at h; exact absurd h (by simp)
  | some r1 =>
    rw [hstrip] at h
    simp only at h
    by_cases h1 : (List.takeWhile isSpaceChar r1).isEmpty = true
    · rw [if_pos h1] at h; exact absurd h (by simp)
    · rw [if_neg h1] at h
      rcases halt : (match bindingNs (List.dropWhile isSpaceChar r1) with
        | some r => some r
        | none =>
          match bindingBrace (List.dropWhile isSpaceChar r1) with
          | some r => some r
          | none => bindingWord (List.dropWhile isSpaceChar r1)) with _ | r3
      · rw [halt] at h; exact absurd h (by simp)
      · rw [halt] at h
        simp only at h
        have hbind : ∃ b, List.dropWhile isSpaceChar r1 = b ++ r3 ∧ SpecBinding b := by
          rcases hns : bindingNs (List.dropWhile isSpaceChar r1) with _ | r
          · rcases hbr : bindingBrace (List.dropWhile isSpaceChar r1) with _ | r
            · rw [hns, hbr] at halt
              simp only at halt
              exact bindingWord_sound _ _ halt
            · rw [hns, hbr] at halt
              simp only at halt
              injection halt with he
              exact he ▸ bindingBrace_sound _ _ hbr
          · rw [hns] at halt
            simp only at halt
            injection halt with he
            exact he ▸ bindingNs_sound _ _ hns
        by_cases h2 : (List.takeWhile isSpaceChar r3).isEmpty = true
        · rw [if_pos h2] at h; exact absurd h (by simp)
        · rw [if_neg h2] at h
          cases hstrip2 : stripPrefixL kwFrom (List.dropWhile isSpaceChar r3) with
          | none => rw [hstrip2] at h; exact absurd h (by simp)
          | some r4 =>
            rw [hstrip2] at h
            simp only at h
            by_cases h3 : (List.takeWhile isSpaceChar r4).isEmpty = true
            · rw [if_pos h3] at h; exact absurd h (by simp)
            · rw [if_neg h3] at h
              cases hdrop : List.dropWhile isSpaceChar r4 with
              | nil => rw [hdrop] at h; exact absurd h (by simp)
              | cons q r5 =>
                rw [hdrop] at h
                simp only [Bool.and_eq_true] at h
                obtain ⟨hq, hft⟩ := h
                obtain ⟨b, hb1, hb2⟩ := hbind
                rw [Bool.not_eq_true] at h1 h2 h3
                refine ⟨List.takeWhile isSpaceChar r1, b, List.takeWhile isSpaceChar r3,
                  List.takeWhile isSpaceChar r4, q, r5, ?_,
                  isEmpty_false_ne_nil _ h1, takeWhile_all_pred _ _, hb2,
                  isEmpty_false_ne_nil _ h2, takeWhile_all_pred _ _,
                  isEmpty_false_ne_nil _ h3, takeWhile_all_pred _ _,
                  hq, (fromTailMatch_iff name r5).mp hft⟩
                calc l = kwImports ++ r1 := (stripPrefixL_iff _ _ _).mp hstrip
                  _ = kwImports ++ (List.takeWhile isSpaceChar r1 ++
                      List.dropWhile isSpaceChar r1) := by
                    conv_lhs => rw [← List.takeWhile_append_dropWhile (p := isSpaceChar) (l := r1)]
                  _ = kwImports ++ (List.takeWhile isSpaceChar r1 ++ (b ++ r3)) := by rw [hb1]
                  _ = kwImports ++ (List.takeWhile isSpaceChar r1 ++ (b ++
                      (List.takeWhile isSpaceChar r3 ++ List.dropWhile isSpaceChar r3))) := by
                    conv_lhs => rw [← List.takeWhile_append_dropWhile (p := isSpaceChar) (l := r3)]
                  _ = kwImports ++ (List.takeWhile isSpaceChar r1 ++ (b ++
                      (List.takeWhile isSpaceChar r3 ++ (kwFrom ++ r4)))) := by
                    rw [(stripPrefixL_iff _ _ _).mp hstrip2]
                  _ = kwImports ++ (List.takeWhile isSpaceChar r1 ++ (b ++
                      (List.takeWhile isSpaceChar r3 ++ (kwFrom ++
                      (List.takeWhile isSpaceChar r4 ++ List.dropWhile isSpaceChar r4))))) := by
                    conv_lhs => rw [← List.takeWhile_append_dropWhile (p := isSpaceChar) (l := r4)]
                  _ = kwImports ++ (List.takeWhile isSpaceChar r1 ++ (b ++
                      (List.takeWhile isSpaceChar r3 ++ (kwFrom ++
                      (List.takeWhile isSpaceChar r4 ++ q :: r5))))) := by rw [hdrop]
                  _ = kwImports ++ List.takeWhile isSpaceChar r1 ++ b ++
                      List.takeWhile isSpaceChar r3 ++ kwFrom ++
                      List.takeWhile isSpaceChar r4 ++ q :: r5 := by
                    simp [List.append_assoc]

theorem matchImportAt_iff (name l : List Char) :
    matchImportAt name l = true ↔ SpecImportAt name l :=
  ⟨matchImportAt_sound name l, matchImportAt_complete name l⟩

/-- The importer-detection test, characterized: the `includes` fast path plus
an occurrence of the declaratively described import pattern. -/
theorem mightImportFromFile_iff (content name : List Char) :
    mightImportFromFile content name = true ↔
      (containsStr name content = true ∧ SpecImportMatch name content) := by
  unfold mightImportFromFile SpecImportMatch
  rw [Bool.and_eq_true]
  apply and_congr Iff.rfl
  rw [anyPos_iff]
  constructor
  · rintro ⟨pre, suf, heq, hf⟩
    exact ⟨pre, suf, heq, matchImportAt_sound name suf hf⟩
  · rintro ⟨pre, suf, heq, hf⟩
    exact ⟨pre, suf, heq, matchImportAt_complete name suf hf⟩

theorem readFileWithCache_consistent (disk : Disk) (s : Caches) (f : Nat)
    (h : CacheConsistent disk s) :
    (readFileWithCache disk s f).1 = (disk f).map Prod.fst ∧
    CacheConsistent disk ((readFileWithCache disk s f).2) := by
  unfold readFileWithCache
  cases hd : disk f with
  | none =>
    refine ⟨rfl, ?_⟩
    intro g c m hg
    by_cases hgf : g = f
    · subst hgf
      rw [mget_mdel_self] at hg
      exact Option.noConfusion hg
    · rw [mget_mdel_ne f g _ (fun he => hgf he.symm)] at hg
      exact h g c m hg
  | some cm =>
    obtain ⟨c, m⟩ := cm
    cases hm : mget s.contentCache f with
    | none =>
      refine ⟨rfl, ?_⟩
      intro g c' m' hg
      by_cases hgf : g = f
      · subst hgf
        rw [mget_mset_self] at hg
        injection hg with he
        rw [← he]
        exact hd
      · rw [mget_mset_ne f g _ _ (fun he => hgf he.symm)] at hg
        exact h g c' m' hg
    | some p =>
      obtain ⟨c0, m0⟩ := p
      simp only
      by_cases he : m0 = m
      · rw [if_pos he]
        have := h f c0 m0 hm
        rw [hd] at this
        injection this with hp
        rw [Prod.mk.injEq] at hp
        refine ⟨?_, h⟩
        simp [hp.1]
      · rw [if_neg he]
        refine ⟨rfl, ?_⟩
        intro g c' m' hg
        by_cases hgf : g = f
        · subst hgf
          rw [mget_mset_self] at hg
          injection hg with hp
          rw [← hp]
          exact hd
        · rw [mget_mset_ne f g _ _ (fun hx => hgf hx.symm)] at hg
          exact h g c' m' hg

theorem scanCandidates_spec (disk : Disk) (name : List Char) :
    ∀ (fs : List Nat) (s : Caches), CacheConsistent disk s →
      (scanCandidates disk name fs s).1 = fs.filter (fun f =>
        match disk f with
        | some cm => mightImportFromFile cm.1 name
        | none => false) ∧
      CacheConsistent disk ((scanCandidates disk name fs s).2) := by
  intro fs
  induction fs with
  | nil => intro s h; exact ⟨rfl, h⟩
  | cons f fs ih =>
    intro s h
    have hc := readFileWithCache_consistent disk s f h
    have hrec := ih ((readFileWithCache disk s f).2) hc.2
    simp only [scanCandidates]
    cases hdf : disk f with
    | none =>
      have hro : (readFileWithCache disk s f).1 = none := by
        rw [hc.1, hdf]
        rfl
      rw [hro]
      simp only [List.filter_cons, hdf, Bool.false_eq_true, if_false]
      exact ⟨hrec.1, hrec.2⟩
    | some cm =>
      have hro : (readFileWithCache disk s f).1 = some cm.1 := by
        rw [hc.1, hdf]
        rfl
      rw [hro]
      simp only [List.filter_cons, hdf]
      by_cases hmi : mightImportFromFile cm.1 name = true
      · simp only [hmi, if_true]
        exact ⟨by rw [hrec.1], hrec.2⟩
      · simp only [Bool.not_eq_true] at hmi
        simp only [hmi, Bool.false_eq_true, if_false]
        exact ⟨hrec.1, hrec.2⟩

theorem findImp_fresh_spec (disk : Disk) (s : Caches) (allFiles : List Nat)
    (docId : Nat) (name : List Char) (h : CacheConsistent disk s)
    (hm : mget s.impCache docId = none) :
    (findFilesImportingFromCached disk (some allFiles) s docId name).1 =
      (allFiles.filter (fun f => !(f = docId))).filter (fun f =>
        match disk f with
        | some cm => mightImportFromFile cm.1 name
        | none => false) := by
  unfold findFilesImportingFromCached
  rw [hm]
  simp only
  exact (scanCandidates_spec disk name (allFiles.filter (fun f => !(f = docId))) s h).1

/-- C5 counterexample: the importer-detection regex accepts `./Button.css`
(any `\.\w+` suffix, `.css` is not a recognized script extension) and even a
from-clause region spanning a string boundary (`...\x27x\x27; see /Button\x27`),
and `findFilesImportingFromCached` returns both files, although neither
matches the claimed description (an import statement whose from-clause's last
path segment is the base name with at most a recognized extension). -/
theorem C5_counterexample :
    mightImportFromFile (("import X from \x27./Button.css\x27").toList) (("Button").toList)
      = true ∧
    specImportClaimed (("import X from \x27./Button.css\x27").toList) (("Button").toList)
      = false ∧
    mightImportFromFile (("import X from \x27x\x27; see /Button\x27").toList)
      (("Button").toList) = true ∧
    specImportClaimed (("import X from \x27x\x27; see /Button\x27").toList)
      (("Button").toList) = false ∧
    (findFilesImportingFromCached
      (fun nn => if nn = 0 then some ((("import X from \x27./Button.css\x27").toList), 1)
        else if nn = 1 then some ((("import X from \x27x\x27; see /Button\x27").toList), 1)
        else none)
      (some [0, 1, 2]) emptyCaches 2 (("Button").toList)).1 = [0, 1] := by decide

/-- C5 amended: `findImporters` returns exactly the enumerated workspace
files, the source file excluded, whose content contains the base name and
matches the import pattern `import` + whitespace + (namespace, named or
default-like binding) + whitespace + `from` + whitespace + quote + optional
non-newline run ending in `/` + base name + optional dot-plus-word-run +
quote; the pattern accepts any word-character extension (not only recognized
script extensions) and does not require the quoted region to be a single
string literal. -/
theorem C5_importer_filter :
    (∀ content nm, mightImportFromFile content nm = true ↔
      (containsStr nm content = true ∧ SpecImportMatch nm content)) ∧
    (∀ (disk : Disk) (s : Caches) (allFiles : List Nat) (docId : Nat) (nm : List Char),
      CacheConsistent disk s → mget s.impCache docId = none →
      (findFilesImportingFromCached disk (some allFiles) s docId nm).1 =
        (allFiles.filter (fun f => !(f = docId))).filter (fun f =>
          match disk f with
          | some cm => mightImportFromFile cm.1 nm
          | none => false)) :=
  ⟨mightImportFromFile_iff,
   fun disk s allFiles docId nm h hm => findImp_fresh_spec disk s allFiles docId nm h hm⟩

/-- Witness for C5 at the counterexample inputs, from an empty cache. -/
theorem C5_witness :
    (mightImportFromFile (("import X from \x27./Button.css\x27").toList)
        (("Button").toList) = true ↔
      (containsStr (("Button").toList) (("import X from \x27./Button.css\x27").toList) = true ∧
        SpecImportMatch (("Button").toList) (("import X from \x27./Button.css\x27").toList))) ∧
    (findFilesImportingFromCached
      (fun nn => if nn = 0 then some ((("import X from \x27./Button.css\x27").toList), 1)
        else if nn = 1 then some ((("import X from \x27x\x27; see /Button\x27").toList), 1)
        else none)
      (some [0, 1, 2]) emptyCaches 2 (("Button").toList)).1 =
      (([0, 1, 2].filter (fun f => !(f = 2))).filter (fun f =>
        match (fun nn => if nn = 0 then some ((("import X from \x27./Button.css\x27").toList), 1)
          else if nn = 1 then some ((("import X from \x27x\x27; see /Button\x27").toList), 1)
          else none) f with
        | some cm => mightImportFromFile cm.1 (("Button").toList)
        | none => false)) :=
  ⟨C5_importer_filter.1 (("import X from \x27./Button.css\x27").toList) (("Button").toList),
   C5_importer_filter.2
     (fun nn => if nn = 0 then some ((("import X from \x27./Button.css\x27").toList), 1)
       else if nn = 1 then some ((("import X from \x27x\x27; see /Button\x27").toList), 1)
       else none)
     emptyCaches [0, 1, 2] 2 (("Button").toList)
     (fun _ _ _ hg => Option.noConfusion hg) rfl⟩
